import Mathlib

/-!
Shallow embedding of the commit classification and aggregation core of the
linear-release repository (src/src/extractors.ts and the commit scanner),
together with proofs about the specified behaviour.

Strings are modelled as `List Char` internally (`Chars`), with `String`
wrappers at the API boundary.  The JavaScript regular expressions of the
source are translated into deterministic scanning functions; each scanner is
written to follow the backtracking behaviour of the concrete regex it embeds,
as analysed pattern by pattern.  Loops that do not recurse structurally take a
fuel argument; the wrappers supply `length + 1` fuel, which is always enough
because every iteration consumes at least one character.
-/

abbrev Chars := List Char

/-- JavaScript `\w`: ASCII letters, digits and underscore. -/
def isWordChar (c : Char) : Bool := c.isAlpha || c.isDigit || c == '_'

/-- Letters and digits (a word character other than underscore). -/
def isAlnumChar (c : Char) : Bool := c.isAlpha || c.isDigit

/-- JavaScript `\s` restricted to the ASCII whitespace characters. -/
def jsWhitespace (c : Char) : Bool :=
  c == ' ' || c == '\t' || c == '\n' || c == '\r' || c == '\x0b' || c == '\x0c'

/-- Maximal run of characters satisfying `p`, returned together with the rest. -/
def takeRun (p : Char → Bool) : Chars → Chars × Chars
  | [] => ([], [])
  | c :: cs =>
    if p c then
      match takeRun p cs with
      | (run, rest) => (c :: run, rest)
    else ([], c :: cs)

/-- Case-insensitive "starts with" for character lists (ASCII case folding
matching the `i` regex flag on the patterns used by the source). -/
def ciStarts : Chars → Chars → Bool
  | [], _ => true
  | _ :: _, [] => false
  | p :: ps, c :: cs => (p.toLower == c.toLower) && ciStarts ps cs

/-- Identifier match record, mirroring `IdentifierMatch` of the source:
the canonical identifier and the raw matched text. -/
structure IdMatch where
  identifier : String
  rawIdentifier : String
deriving DecidableEq, Repr

/-- The leading-zero guard of `parseMatch`: the decimal digits round-trip
through number parsing exactly when the digit string is a single digit or
does not start with `0`. -/
def noLeadingZero (ds : Chars) : Bool :=
  ds.length == 1 || ds.head? != some ('0')

/-- End boundary `(?:$|\b|(?=_))` evaluated after the digits of an identifier:
either the end of the text, or a following non-alphanumeric character
(underscore is allowed via the lookahead alternative). -/
def endBoundaryOk : Chars → Bool
  | [] => true
  | c :: _ => !(isAlnumChar c)

/-- Negative lookahead `(?!\.\d)` excluding version-like suffixes. -/
def noVersionSuffix : Chars → Bool
  | '.' :: d :: _ => !(d.isDigit)
  | _ => true

/-- One attempt of `ISSUE_IDENTIFIER_REGEX` at the current position (the start
boundary has already been checked by the caller).  Returns `none` when the
regex does not match here; `some (none, rest)` when it matches but
`parseMatch` rejects the leading-zero number (the exec loop still advances
past the match); `some (some m, rest)` on an accepted match. -/
def tryIdMatch (s : Chars) : Option (Option IdMatch × Chars) :=
  match takeRun isWordChar s with
  | (key, r1) =>
    if key.length == 0 || decide (7 < key.length) then none
    else
      match r1 with
      | '-' :: r2 =>
        match takeRun Char.isDigit r2 with
        | (ds, r3) =>
          if ds.length == 0 || decide (9 < ds.length) then none
          else if endBoundaryOk r3 && noVersionSuffix r3 then
            if noLeadingZero ds then
              some (some { identifier := ⟨key.map Char.toUpper ++ '-' :: ds⟩,
                           rawIdentifier := ⟨key ++ '-' :: ds⟩ }, r3)
            else some (none, r3)
          else none
      | _ => none

/-- The `exec` loop of `matchAllIdentifiers`: scan the text left to right,
tracking whether a match may start at the current position (the boundary
`(?:^|\b|(?<=_))` holds exactly when the position is at the start or the
previous character is not alphanumeric). -/
def scanIdsF : Nat → Chars → Bool → List IdMatch
  | 0, _, _ => []
  | _ + 1, [], _ => []
  | fuel + 1, c :: cs, startOk =>
    if startOk then
      match tryIdMatch (c :: cs) with
      | some (m, rest) => m.toList ++ scanIdsF fuel rest false
      | none => scanIdsF fuel cs (!(isAlnumChar c))
    else scanIdsF fuel cs (!(isAlnumChar c))

/-- `matchAllIdentifiers` of the source: every boundary-respecting identifier
match in the text, in order. -/
def matchAllIdentifiers (s : String) : List IdMatch :=
  scanIdsF (s.data.length + 1) s.data true

/-- Character class `[\w-]` used for the organisation and slug segments of a
Linear issue URL. -/
def isWordDash (c : Char) : Bool := isWordChar c || c == '-'

/-- The slug tail `(?:\/[\w-]*)*` of `LINEAR_ISSUE_URL_REGEX`: greedily consume
repetitions of a slash followed by a possibly empty `[\w-]` run. -/
def slugChompF : Nat → Chars → Chars
  | 0, s => s
  | fuel + 1, s =>
    match s with
    | '/' :: r =>
      match takeRun isWordDash r with
      | (_, rest) => slugChompF fuel rest
    | _ => s

/-- One attempt of `LINEAR_ISSUE_URL_REGEX` at the current position.  Returns
the captured identifier text (in its original case) and the rest of the input
after the whole match. -/
def tryUrlAt (s : Chars) : Option (Chars × Chars) :=
  if ciStarts (("http").data) s then
    let r0 := s.drop 4
    let r1 := if ciStarts (("s").data) r0 then r0.drop 1 else r0
    if ciStarts (("://linear.app/").data) r1 then
      match takeRun isWordDash (r1.drop 14) with
      | (org, r2) =>
        if org.length == 0 then none
        else if ciStarts (("/issue/").data) r2 then
          match takeRun isWordChar (r2.drop 7) with
          | (key, r3) =>
            if key.length == 0 || decide (7 < key.length) then none
            else
              match r3 with
              | '-' :: r4 =>
                match takeRun Char.isDigit r4 with
                | (ds, r5) =>
                  if ds.length == 0 then none
                  else if decide (9 < ds.length) then
                    some (key ++ '-' :: ds.take 9, slugChompF s.length (ds.drop 9 ++ r5))
                  else some (key ++ '-' :: ds, slugChompF s.length r5)
              | _ => none
        else none
    else none
  else none

/-- The global replace of `normalizeLinearUrls`: each URL match is replaced by
its captured identifier; scanning resumes after the match. -/
def normUrlsF : Nat → Chars → Chars
  | 0, s => s
  | _ + 1, [] => []
  | fuel + 1, c :: cs =>
    match tryUrlAt (c :: cs) with
    | some (cap, rest) => cap ++ normUrlsF fuel rest
    | none => c :: normUrlsF fuel cs

def normalizeLinearUrls (s : Chars) : Chars := normUrlsF (s.length + 1) s

/-- The magic words of `MAGIC_WORD_REGEX`, in the alternation order of the
source (closing words first, then contributing phrases). -/
def magicWords : List Chars :=
  [("close").data, ("closes").data, ("closed").data, ("closing").data,
   ("fix").data, ("fixes").data, ("fixed").data, ("fixing").data,
   ("resolve").data, ("resolves").data, ("resolved").data, ("resolving").data,
   ("complete").data, ("completes").data, ("completed").data, ("completing").data,
   ("ref").data, ("refs").data, ("references").data, ("part of").data,
   ("related to").data, ("relates to").data, ("contributes to").data,
   ("towards").data, ("toward").data]

/-- Character class `[\s:]` separating a magic word from the identifiers. -/
def sepColonChar (c : Char) : Bool := jsWhitespace c || c == ':'

/-- The core identifier pattern `ISSUE_ID_CORE` = `\w{1,7}-[0-9]{1,9}(?!\.\d)`
(no word boundaries).  Returns `(consumed, rest)`.  The digit quantifier is
greedy with backtracking against the lookahead only: when more than nine
digits are available the ninth cut leaves a digit next (lookahead passes);
when the lookahead fails on the full run, dropping one digit leaves a digit
next, which also passes, provided at least one digit remains. -/
def tryCore (s : Chars) : Option (Chars × Chars) :=
  match takeRun isWordChar s with
  | (key, r1) =>
    if key.length == 0 || decide (7 < key.length) then none
    else
      match r1 with
      | '-' :: r2 =>
        match takeRun Char.isDigit r2 with
        | (ds, r3) =>
          if ds.length == 0 then none
          else if decide (9 < ds.length) then some (key ++ '-' :: ds.take 9, ds.drop 9 ++ r3)
          else if noVersionSuffix r3 then some (key ++ '-' :: ds, r3)
          else if decide (2 ≤ ds.length) then
            some (key ++ '-' :: ds.take (ds.length - 1), ds.drop (ds.length - 1) ++ r3)
          else none
      | _ => none

/-- Boundary `\b` required after the separator word `and`: end of text or a
non-word character. -/
def wordBreakHere : Chars → Bool
  | [] => true
  | c :: _ => !(isWordChar c)

/-- The separator-then-identifier step `(?:[\s,]|\band\b|&)+` followed by
`ISSUE_ID_CORE`, with the backtracking behaviour of the regex: single
separator characters are consumed deterministically; at a possible `and` the
engine first consumes it as a separator and, if the remainder fails, retries
with the identifier pattern starting at the `a`.  `prev` is the character
immediately before the current position (for the `\b` before `and`);
`hasSep` records whether at least one separator has been consumed. -/
def sepThenCoreF : Nat → Char → Bool → Chars → Option (Chars × Chars)
  | 0, _, _, _ => none
  | _ + 1, _, _, [] => none
  | fuel + 1, prev, hasSep, c :: cs =>
    if jsWhitespace c || c == ',' || c == '&' then
      match sepThenCoreF fuel c true cs with
      | some (t, rest) => some (c :: t, rest)
      | none => none
    else
      match cs with
      | c2 :: c3 :: cs3 =>
        if (c.toLower == 'a') && (c2.toLower == 'n') && (c3.toLower == 'd')
            && !(isWordChar prev) && wordBreakHere cs3 then
          match sepThenCoreF fuel c3 true cs3 with
          | some (t, r2) => some (c :: c2 :: c3 :: t, r2)
          | none => if hasSep then tryCore (c :: cs) else none
        else if hasSep then tryCore (c :: cs) else none
      | _ => if hasSep then tryCore (c :: cs) else none

/-- Greedy loop for the second capture group: after the first identifier core,
repeatedly consume separators plus another identifier core. -/
def spanLoopF : Nat → Chars → Chars → Chars × Chars
  | 0, acc, s => (acc, s)
  | fuel + 1, acc, s =>
    match sepThenCoreF (s.length + 1) (acc.getLastD 'x') false s with
    | some (t, rest) => spanLoopF fuel (acc ++ t) rest
    | none => (acc, s)

/-- The capture group 2 of `MAGIC_WORD_REGEX` starting at the current
position: one identifier core followed by arbitrarily many separated cores.
Returns the captured span and the rest of the input. -/
def tryMagicSpan (s : Chars) : Option (Chars × Chars) :=
  match tryCore s with
  | some (c0, r0) => some (spanLoopF (r0.length + 1) c0 r0)
  | none => none

/-- One magic word alternative: the word itself (case-insensitively), then the
mandatory separator run `[\s:]+` (greedy, no useful backtracking since an
identifier cannot start with a separator), then the identifier span. -/
def tryMagicWord (w : Chars) (s : Chars) : Option (Chars × Chars) :=
  if ciStarts w s then
    match takeRun sepColonChar (s.drop w.length) with
    | (seps, r1) => if seps.length == 0 then none else tryMagicSpan r1
  else none

/-- Try the magic word alternatives in the alternation order of the source. -/
def firstMagic : List Chars → Chars → Option (Chars × Chars)
  | [], _ => none
  | w :: ws, s =>
    match tryMagicWord w s with
    | some r => some r
    | none => firstMagic ws s

def tryMagic (s : Chars) : Option (Chars × Chars) := firstMagic magicWords s

/-- The `exec` loop of the magic word matcher over one line, collecting the
capture group 2 spans.  `bOk` tracks the boundary `\b` before the magic word:
true exactly when at the start of the line or the previous character is not a
word character. -/
def magicSpansF : Nat → Chars → Bool → List Chars
  | 0, _, _ => []
  | _ + 1, [], _ => []
  | fuel + 1, c :: cs, bOk =>
    if bOk then
      match tryMagic (c :: cs) with
      | some (span, rest) => span :: magicSpansF fuel rest false
      | none => magicSpansF fuel cs (!(isWordChar c))
    else magicSpansF fuel cs (!(isWordChar c))

/-- Spans of one line after URL normalisation. -/
def magicSpans (line : Chars) : List Chars :=
  let nl := normalizeLinearUrls line
  magicSpansF (nl.length + 1) nl true

/-- Identifier matches of one normalised line: `matchAllIdentifiers` applied
to every capture group 2 span, as in the source. -/
def magicLineMatches (line : Chars) : List IdMatch :=
  (magicSpans line).flatMap (fun span => scanIdsF (span.length + 1) span true)

/-- Split on `/\r?\n/` as `String.prototype.split` does: a lone carriage
return does not split. -/
def splitLinesC : Chars → List Chars
  | [] => [[]]
  | '\r' :: '\n' :: rest => [] :: splitLinesC rest
  | '\n' :: rest => [] :: splitLinesC rest
  | c :: rest =>
    match splitLinesC rest with
    | [] => [[c]]
    | l :: ls => (c :: l) :: ls

/-- `matchMagicWordIdentifiers` of the source: process the message line by
line; on each line rewrite Linear issue URLs to bare identifiers and collect
identifiers preceded by a magic word. -/
def matchMagicWordIdentifiers (s : String) : List IdMatch :=
  (splitLinesC s.data).flatMap magicLineMatches

/-- Test for a leading `revert-<digits>-` segment, case-insensitively, as the
anchored regex of `parseRevertBranch` does. -/
def isRevSegStart (s : Chars) : Bool :=
  ciStarts (("revert-").data) s &&
    (match takeRun Char.isDigit (s.drop 7) with
     | (ds, rest) =>
       ds.length != 0 &&
         (match rest with
          | '-' :: _ => true
          | _ => false))

/-- One unwrap step of `parseRevertBranch`: strip a leading
`revert-<digits>-` segment, or fail. -/
def stepBranch (s : Chars) : Option Chars :=
  if ciStarts (("revert-").data) s then
    match takeRun Char.isDigit (s.drop 7) with
    | (ds, rest) =>
      if ds.length == 0 then none
      else
        match rest with
        | '-' :: r2 => some r2
        | _ => none
  else none

/-- The organisation strip `^.*\/(?=revert-\d+-)` of `parseRevertBranch`:
drop everything up to and including the last slash that is followed by a
revert segment; the greedy dot does not cross line terminators, so only
slashes before the first line terminator are eligible.  Returns the suffix
after that slash when one exists. -/
def lastRevSlash : Chars → Option Chars
  | [] => none
  | c :: cs =>
    if c == '\n' || c == '\r' || c == ' ' || c == ' ' then none
    else
      match lastRevSlash cs with
      | some t => some t
      | none => if c == '/' && isRevSegStart cs then some cs else none

/-- Depth-counting loop shared by the two revert resolvers. -/
def unwrapLoopF (step : Chars → Option Chars) : Nat → Nat → Chars → Nat × Chars
  | 0, depth, s => (depth, s)
  | fuel + 1, depth, s =>
    match step s with
    | some r => unwrapLoopF step fuel (depth + 1) r
    | none => (depth, s)

/-- Revert nesting information: depth and fully unwrapped inner text. -/
structure RevertInfo where
  depth : Nat
  inner : String
deriving DecidableEq, Repr

/-- `parseRevertBranch` of the source: strip the organisation part, then
repeatedly strip `revert-<digits>-` segments, counting depth. -/
def parseRevertBranch (branchName : String) : RevertInfo :=
  let s := (lastRevSlash branchName.data).getD branchName.data
  match unwrapLoopF stepBranch (s.length + 1) 0 s with
  | (d, inner) => ⟨d, ⟨inner⟩⟩

/-- `getRevertBranchDepth` of the source: a missing or empty branch name has
depth `0`. -/
def getRevertBranchDepth : Option String → Nat
  | none => 0
  | some s => if s = "" then 0 else (parseRevertBranch s).depth

/-- Characters strictly before the last double quote, when a double quote
occurs at all. -/
def lastQuoteSplit : Chars → Option Chars
  | [] => none
  | c :: cs =>
    match lastQuoteSplit cs with
    | some t => some (c :: t)
    | none => if c == '"' then some [] else none

/-- One unwrap step of `parseRevertMessage`.  The loop guard `/^Revert "/i`
is case-insensitive, but the unwrapping match `/^Revert "(.+)"(.*)$/s` is
case-sensitive; a guard hit without a successful match ends the loop, which
this single step models by failing.  The greedy `(.+)` captures up to the
last double quote of the text, and needs at least one character. -/
def stepMessage (s : Chars) : Option Chars :=
  if ciStarts (("revert \"").data) s then
    if s.take 8 = ("Revert \"").data then
      match lastQuoteSplit (s.drop 8) with
      | some inner => if inner.length == 0 then none else some inner
      | none => none
    else none
  else none

/-- `parseRevertMessage` of the source. -/
def parseRevertMessage (message : String) : RevertInfo :=
  match unwrapLoopF stepMessage (message.data.length + 1) 0 message.data with
  | (d, inner) => ⟨d, ⟨inner⟩⟩

/-- `getRevertMessageDepth` of the source: a missing or empty message has
depth `0`. -/
def getRevertMessageDepth : Option String → Nat
  | none => 0
  | some s => if s = "" then 0 else (parseRevertMessage s).depth

/-- Field provenance of an extracted identifier. -/
inductive IdSource
  | branch_name
  | commit_message
deriving DecidableEq, Repr

/-- An identifier extracted from a commit, tagged with the field it came
from, as consumed by the commit scanner. -/
structure ExtractedIdentifier where
  identifier : String
  source : IdSource
deriving DecidableEq, Repr

/-- A commit record: sha, optional branch name, optional message. -/
structure CommitContext where
  sha : String
  branchName : Option String := none
  message : Option String := none
deriving DecidableEq, Repr

/-- JavaScript `?? ""` on an optional string. -/
def orEmpty : Option String → String
  | none => ""
  | some s => s

/-- First-seen deduplication keyed by the canonical identifier, modelling the
insertion-ordered `Map` of the source. -/
def dedupEIAux (seen : List String) : List ExtractedIdentifier → List ExtractedIdentifier
  | [] => []
  | e :: t =>
    if e.identifier ∈ seen then dedupEIAux seen t
    else e :: dedupEIAux (e.identifier :: seen) t

/-- `extractLinearIssueIdentifiersForCommit` of the source: skip commits whose
branch or message revert depth is odd; otherwise collect all identifiers of
the depth-stripped branch text and the magic-word identifiers of the original
message, deduplicated first-seen by canonical identifier.  The identifier
logic follows src/src/extractors.ts; the `source` tag on each result follows
the shape consumed by the scanner and its tests. -/
def extractLinearIssueIdentifiersForCommit (c : CommitContext) : List ExtractedIdentifier :=
  let pb := parseRevertBranch (orEmpty c.branchName)
  if pb.depth % 2 == 1 then []
  else
    let pm := parseRevertMessage (orEmpty c.message)
    if pm.depth % 2 == 1 then []
    else
      dedupEIAux []
        ((matchAllIdentifiers pb.inner).map
            (fun m => ⟨m.identifier, IdSource.branch_name⟩) ++
         (matchMagicWordIdentifiers (orEmpty c.message)).map
            (fun m => ⟨m.identifier, IdSource.commit_message⟩))

/-- Modelled from the spec: the function `extractRevertedIssueIdentifiersForCommit`
is referenced by the commit scanner and its tests, but its implementation file
is not present under src.  This definition follows spec section 4.2
(`extractRevertedIdentifiers`): if both revert depths are zero return nothing;
an odd branch depth contributes all identifiers of the unwrapped branch inner
text, an odd message depth contributes the magic-word identifiers of the
unwrapped message inner text; even non-zero depths contribute nothing; the
union is deduplicated first-seen. -/
def extractRevertedIssueIdentifiersForCommit (c : CommitContext) : List ExtractedIdentifier :=
  let pb := parseRevertBranch (orEmpty c.branchName)
  let pm := parseRevertMessage (orEmpty c.message)
  if pb.depth == 0 && pm.depth == 0 then []
  else
    dedupEIAux []
      ((if pb.depth % 2 == 1 then
          (matchAllIdentifiers pb.inner).map (fun m => ⟨m.identifier, IdSource.branch_name⟩)
        else []) ++
       (if pm.depth % 2 == 1 then
          (matchMagicWordIdentifiers pm.inner).map (fun m => ⟨m.identifier, IdSource.commit_message⟩)
        else []))

def idsOf (l : List ExtractedIdentifier) : List String := l.map ExtractedIdentifier.identifier

/-- Decimal value of a digit string, as `parseInt(s, 10)` on digits. -/
def digitsToNat (ds : Chars) : Nat :=
  ds.foldl (fun a c => a * 10 + (c.toNat - ('0').toNat)) 0

/-- First line of a message, as `message.split(/\r?\n/)[0] ?? ""`. -/
def firstLine (s : Chars) : Chars := (splitLinesC s).headD []

/-- The squash rule: the first line ends in `(#<digits>)`; the digits are the
maximal digit run ending just before the final parenthesis. -/
def squashNumber (title : Chars) : Option Nat :=
  match title.reverse with
  | ')' :: r =>
    match takeRun Char.isDigit r with
    | (ds, rest) =>
      if ds.length == 0 then none
      else
        match rest with
        | '#' :: '(' :: _ => some (digitsToNat ds.reverse)
        | _ => none
  | _ => none

/-- The merge rule: the message starts, case-insensitively, with
`Merge pull request #` followed by at least one digit. -/
def mergeNumber (msg : Chars) : Option Nat :=
  if ciStarts (("merge pull request #").data) msg then
    match takeRun Char.isDigit (msg.drop 20) with
    | (ds, _) => if ds.length == 0 then none else some (digitsToNat ds)
  else none

/-- The fallback scan: every `#<digits>` occurrence in the whole message. -/
def fallbackPRsF : Nat → Chars → List Nat
  | 0, _ => []
  | _ + 1, [] => []
  | fuel + 1, '#' :: cs =>
    (match takeRun Char.isDigit cs with
     | (ds, rest) =>
       if ds.length == 0 then fallbackPRsF fuel cs
       else digitsToNat ds :: fallbackPRsF fuel rest)
  | fuel + 1, _ :: cs => fallbackPRsF fuel cs

/-- First-seen deduplication of numbers, modelling `[...new Set(ns)]`. -/
def dedupNatAux (seen : List Nat) : List Nat → List Nat
  | [] => []
  | n :: t => if n ∈ seen then dedupNatAux seen t else n :: dedupNatAux (n :: seen) t

/-- `extractPullRequestNumbersForCommit` of the source: skip quoted-revert
messages and odd-depth revert branches; otherwise check the squash and merge
rules independently, and fall back to scanning the whole message for
`#<digits>` only when neither rule produced a number; deduplicate first-seen. -/
def extractPullRequestNumbersForCommit (c : CommitContext) : List Nat :=
  let msg := orEmpty c.message
  if ciStarts (("revert \"").data) msg.data then []
  else if getRevertBranchDepth c.branchName % 2 == 1 then []
  else
    let base := (squashNumber (firstLine msg.data)).toList ++ (mergeNumber msg.data).toList
    let nums := if base.isEmpty then fallbackPRsF (msg.data.length + 1) msg.data else base
    dedupNatAux [] nums

/-- Last-write-wins action of an identifier. -/
inductive IssueAction
  | added
  | reverted
deriving DecidableEq, Repr

/-- Winning classification record of one identifier. -/
structure IssueReference where
  identifier : String
  commitSha : String
deriving DecidableEq, Repr

/-- Audit-trail entry for one observation of an identifier. -/
structure IssueSource where
  sha : String
  source : IdSource
  value : String
deriving DecidableEq, Repr

/-- Audit-trail entry for one observed pull request number. -/
structure PullRequestSource where
  sha : String
  number : Nat
  value : String
deriving DecidableEq, Repr

/-- The debug sink built by the scanner.  The insertion-ordered JavaScript
record objects keyed by identifier are modelled as association lists. -/
structure DebugSink where
  inspectedShas : List String
  issues : List (String × List IssueSource)
  revertedIssues : List (String × List IssueSource)
  pullRequests : List PullRequestSource
  includePaths : Option (List String)
deriving DecidableEq, Repr

/-- Lookup in an association list (first binding wins). -/
def alookup (k : String) : List (String × α) → Option α
  | [] => none
  | (k2, v) :: t => if k2 = k then some v else alookup k t

/-- `Map.set` semantics: update the binding in place when the key exists,
append a new binding otherwise. -/
def upsert (k : String) (v : α) : List (String × α) → List (String × α)
  | [] => [(k, v)]
  | (k2, v2) :: t => if k2 = k then (k, v) :: t else (k2, v2) :: upsert k v t

/-- Append an entry to the list bound to `k`, creating the binding at the end
when it does not exist (the `if (!sink[id]) sink[id] = []; push` pattern). -/
def pushEntry (k : String) (e : β) : List (String × List β) → List (String × List β)
  | [] => [(k, [e])]
  | (k2, es) :: t => if k2 = k then (k2, es ++ [e]) :: t else (k2, es) :: pushEntry k e t

/-- The raw field value recorded in the audit trail for a source tag. -/
def sourceValue (c : CommitContext) : IdSource → String
  | IdSource.branch_name => orEmpty c.branchName
  | IdSource.commit_message => orEmpty c.message

/-- Mutable state of the scanner fold. -/
structure ScanState where
  lastAction : List (String × IssueAction)
  addedRefs : List (String × IssueReference)
  revertedRefs : List (String × IssueReference)
  prNumbers : List Nat
  debugSink : DebugSink
deriving DecidableEq, Repr

/-- Result of a scan. -/
structure ScanOutcome where
  issueReferences : List IssueReference
  revertedIssueReferences : List IssueReference
  prNumbers : List Nat
  debugSink : DebugSink
deriving DecidableEq, Repr

/-- Processing of one reverted-identifier observation. -/
def applyReverted (c : CommitContext) (st : ScanState) (e : ExtractedIdentifier) : ScanState :=
  { st with
    debugSink := { st.debugSink with
      revertedIssues :=
        pushEntry e.identifier ⟨c.sha, e.source, sourceValue c e.source⟩ st.debugSink.revertedIssues },
    lastAction := upsert e.identifier IssueAction.reverted st.lastAction,
    revertedRefs := upsert e.identifier ⟨e.identifier, c.sha⟩ st.revertedRefs }

/-- Processing of one added-identifier observation. -/
def applyAdded (c : CommitContext) (st : ScanState) (e : ExtractedIdentifier) : ScanState :=
  { st with
    debugSink := { st.debugSink with
      issues := pushEntry e.identifier ⟨c.sha, e.source, sourceValue c e.source⟩ st.debugSink.issues },
    lastAction := upsert e.identifier IssueAction.added st.lastAction,
    addedRefs := upsert e.identifier ⟨e.identifier, c.sha⟩ st.addedRefs }

/-- Processing of one observed pull request number. -/
def applyPR (c : CommitContext) (st : ScanState) (n : Nat) : ScanState :=
  if n ∈ st.prNumbers then st
  else
    { st with
      prNumbers := st.prNumbers ++ [n],
      debugSink := { st.debugSink with
        pullRequests := st.debugSink.pullRequests ++ [⟨c.sha, n, orEmpty c.message⟩] } }

/-- Processing of one commit: record the sha, then fold the reverted
observations, the added observations, and the pull request numbers, in the
order of the source loop. -/
def scanStep (st : ScanState) (c : CommitContext) : ScanState :=
  let st0 := { st with debugSink :=
    { st.debugSink with inspectedShas := st.debugSink.inspectedShas ++ [c.sha] } }
  let st1 := (extractRevertedIssueIdentifiersForCommit c).foldl (applyReverted c) st0
  let st2 := (extractLinearIssueIdentifiersForCommit c).foldl (applyAdded c) st1
  (extractPullRequestNumbersForCommit c).foldl (applyPR c) st2

/-- Empty scanner state. -/
def initScanState (includePaths : Option (List String)) : ScanState :=
  { lastAction := [], addedRefs := [], revertedRefs := [], prNumbers := [],
    debugSink := { inspectedShas := [], issues := [], revertedIssues := [],
                   pullRequests := [], includePaths := includePaths } }

/-- Final partition of `lastAction` (in insertion order) into the added and
reverted reference lists, pulling each identifier's recorded reference. -/
def finalizeScan (st : ScanState) : ScanOutcome :=
  { issueReferences := st.lastAction.filterMap
      (fun p => if p.2 = IssueAction.added then alookup p.1 st.addedRefs else none),
    revertedIssueReferences := st.lastAction.filterMap
      (fun p => if p.2 = IssueAction.reverted then alookup p.1 st.revertedRefs else none),
    prNumbers := st.prNumbers,
    debugSink := st.debugSink }

/-- `scanCommits` of the source: fold the commits (oldest first) through the
scanner state and finalize. -/
def scanCommits (commits : List CommitContext) (includePaths : Option (List String)) : ScanOutcome :=
  finalizeScan (commits.foldl scanStep (initScanState includePaths))

/-- The add, revert, re-add chain of the scanner test-suite. -/
def chainCommits : List CommitContext :=
  [⟨"a1", none, some ("Add TEST variable to .env.example")⟩,
   ⟨"a2", some ("romain/bac-39"), some ("Merge pull request #571 from org/romain/bac-39 Add TEST variable")⟩,
   ⟨"r1", none, some ("Revert \"Add TEST variable to .env.example\"")⟩,
   ⟨"r2", some ("revert-571-romain/bac-39"),
     some ("Merge pull request #572 from org/revert-571-romain/bac-39 Revert \"Add TEST variable\"")⟩,
   ⟨"ra1", none, some ("Revert \"Revert \"Add TEST variable to .env.example\"\"")⟩,
   ⟨"ra2", some ("revert-572-revert-571-romain/bac-39"),
     some ("Merge pull request #573 from org/revert-572-revert-571-romain/bac-39 Custom name")⟩]

/-- Canonical identifier shape: an upper-cased team key of one to seven word
characters, a hyphen, and a number of one to nine decimal digits with no
leading zero. -/
def isCanonicalIdentifier (s : String) : Bool :=
  match takeRun isWordChar s.data with
  | (key, r1) =>
    key.length != 0 && !(decide (7 < key.length)) && key.all (fun c => !(c.isLower)) &&
      (match r1 with
       | '-' :: r2 =>
         (match takeRun Char.isDigit r2 with
          | (ds, r3) =>
            r3.isEmpty && ds.length != 0 && !(decide (9 < ds.length)) && noLeadingZero ds)
       | _ => false)

/-- The separator demanded by the specification sentence for claim C5, read
literally: the magic word is immediately followed by a whitespace character,
or by a colon that is itself followed by a whitespace character. -/
def specSepWS : Chars → Bool
  | [] => false
  | c :: rest =>
    jsWhitespace c ||
      (c == ':' &&
        (match rest with
         | d :: _ => jsWhitespace d
         | [] => false))

/-- Scanner for the specification's gating premise: some position of the line
carries a magic word at a word boundary immediately followed by a
`specSepWS` separator. -/
def hasMagicGateWS : Chars → Bool → Bool
  | [], _ => false
  | c :: cs, b =>
    (b && magicWords.any (fun w => ciStarts w (c :: cs) && specSepWS ((c :: cs).drop w.length)))
      || hasMagicGateWS cs (!(isWordChar c))

/-- Identifier lists observed by the scanner for one commit. -/
def addedIdsOf (c : CommitContext) : List String :=
  idsOf (extractLinearIssueIdentifiersForCommit c)

def revertedIdsOf (c : CommitContext) : List String :=
  idsOf (extractRevertedIssueIdentifiersForCommit c)

/-- The action a single commit records for an identifier, matching the
processing order of the scanner loop (the added loop runs after the reverted
loop, so an added observation wins within one commit). -/
def obsOf (c : CommitContext) (id : String) : Option IssueAction :=
  if id ∈ addedIdsOf c then some IssueAction.added
  else if id ∈ revertedIdsOf c then some IssueAction.reverted
  else none

/-- The chronologically latest observation of an identifier across an ordered
commit list, together with the observing commit's sha. -/
def lastObs (cs : List CommitContext) (id : String) : Option (IssueAction × String) :=
  cs.foldl
    (fun acc c =>
      match obsOf c id with
      | some a => some (a, c.sha)
      | none => acc)
    none

/-- Sha of the latest commit whose added extraction contains the identifier. -/
def lastAddedSha (cs : List CommitContext) (id : String) : Option String :=
  cs.foldl (fun acc c => if id ∈ addedIdsOf c then some c.sha else acc) none

/-- Sha of the latest commit whose reverted extraction contains the identifier. -/
def lastRevertedSha (cs : List CommitContext) (id : String) : Option String :=
  cs.foldl (fun acc c => if id ∈ revertedIdsOf c then some c.sha else acc) none

/-- Invariant linking the scanner state after a processed prefix to the
last-observation view of that prefix. -/
def ScanInv (cs : List CommitContext) (st : ScanState) : Prop :=
  ((st.lastAction.map Prod.fst).Nodup) ∧
  (∀ id, alookup id st.lastAction = (lastObs cs id).map Prod.fst) ∧
  (∀ id, alookup id st.addedRefs =
    (lastAddedSha cs id).map (fun sha => (⟨id, sha⟩ : IssueReference))) ∧
  (∀ id, alookup id st.revertedRefs =
    (lastRevertedSha cs id).map (fun sha => (⟨id, sha⟩ : IssueReference))) ∧
  (∀ id sha, lastAddedSha cs id = some sha →
    ∃ es, alookup id st.debugSink.issues = some es ∧ ∃ e ∈ es, e.sha = sha) ∧
  (∀ id sha, lastRevertedSha cs id = some sha →
    ∃ es, alookup id st.debugSink.revertedIssues = some es ∧ ∃ e ∈ es, e.sha = sha)


theorem takeRun_append (p : Char → Bool) : ∀ s : Chars,
    (takeRun p s).1 ++ (takeRun p s).2 = s := by
  intro s
  induction s with
  | nil => rfl
  | cons c cs ih =>
    by_cases h : p c = true
    · simp only [takeRun, h, if_pos]
      cases htr : takeRun p cs with
      | mk run rest =>
        rw [htr] at ih
        simpa using ih
    · simp [takeRun, h]

theorem takeRun_length_le (p : Char → Bool) (s : Chars) :
    (takeRun p s).2.length ≤ s.length := by
  conv_rhs => rw [← takeRun_append p s]
  simp

theorem takeRun_fst_all (p : Char → Bool) : ∀ s : Chars, ∀ c ∈ (takeRun p s).1, p c = true := by
  intro s
  induction s with
  | nil => simp [takeRun]
  | cons c cs ih =>
    by_cases h : p c = true
    · simp only [takeRun, h, if_pos]
      cases htr : takeRun p cs with
      | mk run rest =>
        rw [htr] at ih
        intro d hd
        simp only [List.mem_cons] at hd
        rcases hd with hd | hd
        · rw [hd]; exact h
        · exact ih d hd
    · simp [takeRun, h]

theorem takeRun_length_eq (p : Char → Bool) (s : Chars) :
    (takeRun p s).1.length + (takeRun p s).2.length = s.length := by
  conv_rhs => rw [← takeRun_append p s]
  simp

example : matchAllIdentifiers ("feature/ENG-123-awesome-change") =
    [{ identifier := "ENG-123", rawIdentifier := "ENG-123" }] := by decide

example : (matchAllIdentifiers ("story/LIN-123_LIN-321_hello_world")).map IdMatch.identifier =
    ["LIN-123", "LIN-321"] := by decide

example : matchAllIdentifiers ("release/ios-1.57.1") = [] := by decide

example : matchAllIdentifiers ("release/ver-1.57.01") = [] := by decide

example : matchAllIdentifiers ("feature/LIN-0004-test") = [] := by decide

example : matchAllIdentifiers ("feature/ABCDEFGH-123-too-long") = [] := by decide

example : (matchAllIdentifiers ("jane/asks/all/LIN-56081")).map IdMatch.identifier =
    ["LIN-56081"] := by decide

example : normalizeLinearUrls (("Fixes https://linear.app/myorg/issue/LIN-123/fix-auth").data) =
    ("Fixes LIN-123").data := by decide

example : normalizeLinearUrls (("See https://linear.app/my-org/issue/LIN-213/").data) =
    ("See LIN-213").data := by decide

example : (matchMagicWordIdentifiers ("Fixes PLAT-42 and ENG-7 in one go")).map IdMatch.identifier =
    ["PLAT-42", "ENG-7"] := by decide

example : matchMagicWordIdentifiers ("See LIN-123 for details") = [] := by decide

example : (matchMagicWordIdentifiers ("Fixes LIN-123, LIN-456 and ENG-789")).map IdMatch.identifier =
    ["LIN-123", "LIN-456", "ENG-789"] := by decide

example : (matchMagicWordIdentifiers ("Fix LIN-123: something")).map IdMatch.identifier =
    ["LIN-123"] := by decide

example : matchMagicWordIdentifiers ("LIN-123: Fix something") = [] := by decide

example : (matchMagicWordIdentifiers ("See LIN-111, fixes LIN-222")).map IdMatch.identifier =
    ["LIN-222"] := by decide

example : matchMagicWordIdentifiers ("Title\nSeparate issue to follow up on that here LIN-60064") = [] := by decide

example : (matchMagicWordIdentifiers ("Closes: LIN-123")).map IdMatch.identifier = ["LIN-123"] := by decide

example : (matchMagicWordIdentifiers ("fIXES LIN-123")).map IdMatch.identifier = ["LIN-123"] := by decide

example : (matchMagicWordIdentifiers ("Part of LIN-123")).map IdMatch.identifier = ["LIN-123"] := by decide

example : (matchMagicWordIdentifiers ("Fixes https://linear.app/myorg/issue/LIN-123/fix-auth")).map IdMatch.identifier =
    ["LIN-123"] := by decide

example : matchMagicWordIdentifiers ("See https://linear.app/myorg/issue/LIN-123/fix") = [] := by decide

example : (matchMagicWordIdentifiers ("Fixes https://linear.app/myorg/issue/LIN-123/slug, ENG-456 and LIN-789")).map IdMatch.identifier =
    ["LIN-123", "ENG-456", "LIN-789"] := by decide

example : (matchMagicWordIdentifiers ("Fixes http://linear.app/myorg/issue/LIN-123")).map IdMatch.identifier =
    ["LIN-123"] := by decide

example : parseRevertBranch ("revert-572-revert-571-romain/bac-39") =
    ⟨2, "romain/bac-39"⟩ := by decide
example : getRevertBranchDepth (some ("org/revert-572-revert-571-romain/bac-39")) = 2 := by decide
example : getRevertBranchDepth (some ("revert-574-revert-573-revert-572-romain/bac-39")) = 3 := by decide
example : getRevertBranchDepth (some ("romain/bac-39")) = 0 := by decide
example : getRevertBranchDepth none = 0 := by decide
example : getRevertBranchDepth (some ("revert-1-user/eng-200")) = 1 := by decide
example : parseRevertBranch ("revert-1-user/eng-200") = ⟨1, "user/eng-200"⟩ := by decide

example : parseRevertMessage ("Revert \"DRIVE-320: Fix\"") = ⟨1, "DRIVE-320: Fix"⟩ := by decide
example : parseRevertMessage ("Revert \"Revert \"DRIVE-320: Fix\"\"") = ⟨2, "DRIVE-320: Fix"⟩ := by decide
example : getRevertMessageDepth (some ("Revert \"Revert \"Revert \"DRIVE-320: Fix\"\"\"")) = 3 := by decide
example : getRevertMessageDepth (some ("Reapply \"DRIVE-320: Fix\"")) = 0 := by decide
example : getRevertMessageDepth (some ("Fix memory leak")) = 0 := by decide

example : idsOf (extractLinearIssueIdentifiersForCommit
    ⟨"abc123", some ("feature/ENG-123-awesome-change"), some ("Some message")⟩) = ["ENG-123"] := by decide
example : idsOf (extractLinearIssueIdentifiersForCommit
    ⟨"abc123", some ("feature/eng-123-awesome-change"), some ("Fixed ENG-123, see ENG-123")⟩) = ["ENG-123"] := by decide
example : idsOf (extractLinearIssueIdentifiersForCommit
    ⟨"abc", some ("revert-571-romain/bac-39"),
      some ("Merge pull request #572 from org/revert-571-romain/bac-39")⟩) = [] := by decide
example : idsOf (extractLinearIssueIdentifiersForCommit
    ⟨"abc", none, some ("Revert \"Fixes ENG-100\"")⟩) = [] := by decide
example : idsOf (extractLinearIssueIdentifiersForCommit
    ⟨"abc", some ("revert-572-revert-571-romain/bac-39"), none⟩) = ["BAC-39"] := by decide
example : idsOf (extractLinearIssueIdentifiersForCommit
    ⟨"abc", some ("feature/no-key-here"), some ("Fixes PLAT-42 and ENG-7 in one go")⟩) =
    ["PLAT-42", "ENG-7"] := by decide

example : idsOf (extractRevertedIssueIdentifiersForCommit
    ⟨"abc", none, some ("Revert \"Fixes ENG-100\"")⟩) = ["ENG-100"] := by decide
example : idsOf (extractRevertedIssueIdentifiersForCommit
    ⟨"abc", none, some ("Revert \"DRIVE-320: Fix memory leak in background location service\"")⟩) = [] := by decide
example : idsOf (extractRevertedIssueIdentifiersForCommit
    ⟨"abc", none, some ("Revert \"Bump v1-2 to v1-3\"")⟩) = [] := by decide
example : idsOf (extractRevertedIssueIdentifiersForCommit
    ⟨"abc", some ("revert-571-romain/bac-39"), some ("Revert \"Add TEST variable to .env.example\"")⟩) =
    ["BAC-39"] := by decide
example : idsOf (extractRevertedIssueIdentifiersForCommit
    ⟨"abc", some ("revert-566-romain/drive-320"), some ("Revert \"Fixes DRIVE-320: memory leak\"")⟩) =
    ["DRIVE-320"] := by decide
example : idsOf (extractRevertedIssueIdentifiersForCommit
    ⟨"abc", none, some ("Revert \"Fixes DRIVE-320 and DRIVE-321\"")⟩) =
    ["DRIVE-320", "DRIVE-321"] := by decide
example : idsOf (extractRevertedIssueIdentifiersForCommit
    ⟨"abc", some ("romain/drive-320"), some ("DRIVE-320: Fix memory leak")⟩) = [] := by decide
example : idsOf (extractRevertedIssueIdentifiersForCommit ⟨"abc", none, none⟩) = [] := by decide
example : idsOf (extractRevertedIssueIdentifiersForCommit
    ⟨"abc", some ("revert-572-revert-571-romain/bac-39"),
      some ("Merge pull request #573 from org/revert-572-revert-571-romain/bac-39 Custom name")⟩) = [] := by decide

example : extractPullRequestNumbersForCommit
    ⟨"abc", none, some ("For issue #111, fix (#123)")⟩ = [123] := by decide
example : extractPullRequestNumbersForCommit
    ⟨"abc", none, some ("Fix #124 with better handling")⟩ = [124] := by decide
example : extractPullRequestNumbersForCommit
    ⟨"abc", none, some ("Merge pull request #431 from org/branch")⟩ = [431] := by decide
example : extractPullRequestNumbersForCommit
    ⟨"abc", none, some ("Merge pull request #42 from owner/branch\n\nDescription")⟩ = [42] := by decide
example : extractPullRequestNumbersForCommit
    ⟨"abc", none, some ("Fix bug\n\nRelated to (#999)")⟩ = [999] := by decide
example : extractPullRequestNumbersForCommit ⟨"abc", none, some ("Some fix")⟩ = [] := by decide
example : extractPullRequestNumbersForCommit ⟨"abc", none, none⟩ = [] := by decide
example : extractPullRequestNumbersForCommit
    ⟨"abc", none, some ("Revert \"Fix bug (#123)\"")⟩ = [] := by decide
example : extractPullRequestNumbersForCommit
    ⟨"abc", none, some ("Revert \"Merge pull request #456 from owner/branch\"")⟩ = [] := by decide
example : extractPullRequestNumbersForCommit
    ⟨"abc", some ("revert-571-romain/bac-39"),
      some ("Merge pull request #572 from org/revert-571-romain/bac-39")⟩ = [] := by decide

example : (scanCommits chainCommits none).issueReferences = [⟨"BAC-39", "ra2"⟩] := by decide
example : (scanCommits chainCommits none).revertedIssueReferences = [] := by decide
example : (scanCommits (chainCommits.take 2) none).issueReferences = [⟨"BAC-39", "a2"⟩] := by decide
example : (scanCommits (chainCommits.take 4) none).issueReferences = [] := by decide
example : (scanCommits (chainCommits.take 4) none).revertedIssueReferences = [⟨"BAC-39", "r2"⟩] := by decide
example : (scanCommits [⟨"a1", some ("user/eng-100"), some ("Fixes ENG-100")⟩,
    ⟨"r1", some ("revert-1-user/eng-200"), some ("Revert \"ENG-200: something\"")⟩] none).issueReferences =
    [⟨"ENG-100", "a1"⟩] := by decide
example : (scanCommits [⟨"a1", some ("user/eng-100"), some ("Fixes ENG-100")⟩,
    ⟨"r1", some ("revert-1-user/eng-200"), some ("Revert \"ENG-200: something\"")⟩] none).revertedIssueReferences =
    [⟨"ENG-200", "r1"⟩] := by decide
example : (scanCommits [⟨"a1", some ("user/eng-100"), none⟩,
    ⟨"r1", some ("revert-1-user/eng-100"), some ("Merge pull request #2\n\nFixes ENG-100")⟩] none).issueReferences
    = [] := by decide
example : (scanCommits [⟨"a1", some ("user/eng-100"), none⟩,
    ⟨"r1", some ("revert-1-user/eng-100"), some ("Merge pull request #2\n\nFixes ENG-100")⟩]
    none).revertedIssueReferences = [⟨"ENG-100", "r1"⟩] := by decide

theorem takeRun_all (p : Char → Bool) : ∀ a : Chars, (∀ c ∈ a, p c = true) → takeRun p a = (a, []) := by
  intro a
  induction a with
  | nil => intro _; rfl
  | cons c cs ih =>
    intro h
    have hc : p c = true := h c (by simp)
    have hcs := ih (fun d hd => h d (by simp [hd]))
    simp [takeRun, hc, hcs]

theorem takeRun_all_stop (p : Char → Bool) : ∀ (a : Chars) (d : Char) (b : Chars),
    (∀ c ∈ a, p c = true) → p d = false → takeRun p (a ++ d :: b) = (a, d :: b) := by
  intro a
  induction a with
  | nil =>
    intro d b _ hd
    simp [takeRun, hd]
  | cons c cs ih =>
    intro d b ha hd
    have hc : p c = true := ha c (by simp)
    have := ih d b (fun x hx => ha x (by simp [hx])) hd
    simp [takeRun, hc, this]

theorem ciStarts_length : ∀ p s : Chars, ciStarts p s = true → p.length ≤ s.length := by
  intro p
  induction p with
  | nil => intro s _; simp
  | cons c cs ih =>
    intro s h
    cases s with
    | nil => simp [ciStarts] at h
    | cons d ds =>
      simp only [ciStarts, Bool.and_eq_true] at h
      have := ih ds h.2
      simp [Nat.succ_le_succ this]

theorem ciStarts_toLower_take : ∀ p s : Chars, ciStarts p s = true →
    (s.take p.length).map Char.toLower = p.map Char.toLower := by
  intro p
  induction p with
  | nil => intro s _; simp
  | cons c cs ih =>
    intro s h
    cases s with
    | nil => simp [ciStarts] at h
    | cons d ds =>
      simp only [ciStarts, Bool.and_eq_true, beq_iff_eq] at h
      simp [List.take, ih ds h.2, h.1]

theorem lastQuoteSplit_length : ∀ s t : Chars, lastQuoteSplit s = some t → t.length < s.length := by
  intro s
  induction s with
  | nil => intro t h; simp [lastQuoteSplit] at h
  | cons c cs ih =>
    intro t h
    simp only [lastQuoteSplit] at h
    cases hq : lastQuoteSplit cs with
    | some u =>
      rw [hq] at h
      simp only [Option.some.injEq] at h
      subst h
      have := ih u hq
      simp [Nat.succ_lt_succ this]
    | none =>
      rw [hq] at h
      by_cases hc : c = '"'
      · simp only [hc, beq_self_eq_true, if_pos, Option.some.injEq] at h
        subst h
        simp
      · simp [hc] at h

theorem stepBranch_length (s t : Chars) (h : stepBranch s = some t) : t.length < s.length := by
  unfold stepBranch at h
  by_cases hci : ciStarts (("revert-").data) s = true
  · rw [if_pos hci] at h
    have hlen : 7 ≤ s.length := ciStarts_length _ s hci
    cases htr : takeRun Char.isDigit (s.drop 7) with
    | mk ds rest =>
      rw [htr] at h
      dsimp only at h
      by_cases hds : ds.length == 0
      · simp [hds] at h
      · rw [if_neg (by simpa using hds)] at h
        cases rest with
        | nil => simp at h
        | cons r0 r2 =>
          by_cases hr0 : r0 = '-'
          · subst hr0
            simp only [Option.some.injEq] at h
            subst h
            have hsum := takeRun_length_eq Char.isDigit (s.drop 7)
            rw [htr] at hsum
            simp only [List.length_drop] at hsum
            have hds' : ds.length ≠ 0 := by simpa using hds
            simp only [List.length_cons] at hsum
            omega
          · cases r0 <;> simp_all
  · simp [hci] at h

theorem stepMessage_length (s t : Chars) (h : stepMessage s = some t) : t.length < s.length := by
  unfold stepMessage at h
  by_cases hci : ciStarts (("revert \"").data) s = true
  · rw [if_pos hci] at h
    by_cases htk : s.take 8 = ("Revert \"").data
    · rw [if_pos htk] at h
      cases hq : lastQuoteSplit (s.drop 8) with
      | some inner =>
        rw [hq] at h
        dsimp only at h
        by_cases hi : inner.length == 0
        · simp [hi] at h
        · rw [if_neg (by simpa using hi)] at h
          simp only [Option.some.injEq] at h
          subst h
          have := lastQuoteSplit_length _ _ hq
          have hlen : 8 ≤ s.length := ciStarts_length _ s hci
          simp only [List.length_drop] at this
          omega
      | none => simp [hq] at h
    · simp [htk] at h
  · simp [hci] at h

/-- After the unwrap loop stops, the step function fails on the final inner
text: unwrapping ends at the last successfully parsed depth. -/
theorem unwrapLoopF_stops (step : Chars → Option Chars)
    (hs : ∀ s t, step s = some t → t.length < s.length) :
    ∀ (f d : Nat) (s : Chars), s.length < f → step (unwrapLoopF step f d s).2 = none := by
  intro f
  induction f with
  | zero => intro d s h; omega
  | succ f ih =>
    intro d s h
    unfold unwrapLoopF
    cases hstep : step s with
    | some r =>
      have := hs s r hstep
      exact ih (d + 1) r (by omega)
    | none => simpa using hstep

theorem parseRevertMessage_stops (s : String) :
    stepMessage (parseRevertMessage s).inner.data = none := by
  unfold parseRevertMessage
  cases h : unwrapLoopF stepMessage (s.data.length + 1) 0 s.data with
  | mk d inner =>
    have hstop := unwrapLoopF_stops stepMessage stepMessage_length
      (s.data.length + 1) 0 s.data (by omega)
    rw [h] at hstop
    simpa using hstop

theorem parseRevertBranch_stops (s : String) :
    stepBranch (parseRevertBranch s).inner.data = none := by
  unfold parseRevertBranch
  cases hb : (lastRevSlash s.data).getD s.data with
  | nil =>
    cases h : unwrapLoopF stepBranch (([] : Chars).length + 1) 0 [] with
    | mk d inner =>
      have hstop := unwrapLoopF_stops stepBranch stepBranch_length
        (([] : Chars).length + 1) 0 [] (by simp)
      rw [h] at hstop
      simp only [hb, h]
      simpa using hstop
  | cons c0 cs0 =>
    cases h : unwrapLoopF stepBranch ((c0 :: cs0).length + 1) 0 (c0 :: cs0) with
    | mk d inner =>
      have hstop := unwrapLoopF_stops stepBranch stepBranch_length
        ((c0 :: cs0).length + 1) 0 (c0 :: cs0) (by omega)
      rw [h] at hstop
      simp only [hb, h]
      simpa using hstop

/-- C10: Both revert-unwrapping loops terminate on every input string even
though neither imposes an iteration bound: each iteration of
`parseRevertBranch` removes a non-empty `revert-<digits>-` leading segment
and each iteration of `parseRevertMessage` replaces the text with a strictly
shorter quoted inner substring, so the working string's length strictly
decreases and both functions are total (here: well-defined for every input
with the length of the text as a terminating fuel). -/
theorem revert_unwrap_steps_decrease : ∀ s t : Chars,
    (stepBranch s = some t → t.length < s.length) ∧
    (stepMessage s = some t → t.length < s.length) :=
  fun s t => ⟨stepBranch_length s t, stepMessage_length s t⟩

theorem revert_unwrap_steps_decrease_witness :
    stepBranch (("revert-571-romain/bac-39").data) = some (("romain/bac-39").data) ∧
    (("romain/bac-39").data).length < (("revert-571-romain/bac-39").data).length ∧
    stepMessage (("Revert \"Fix\"").data) = some (("Fix").data) ∧
    (("Fix").data).length < (("Revert \"Fix\"").data).length :=
  ⟨by decide, (revert_unwrap_steps_decrease _ _).1 (by decide),
   by decide, (revert_unwrap_steps_decrease _ _).2 (by decide)⟩

/-- C8: Scan aggregation is prefix-compositional: for every split of an
ordered commit list into a prefix and a remainder, folding the scanner's
accumulator state over the prefix and then continuing the fold over the
remainder yields exactly the same `ScanOutcome` (same lists, same PR numbers,
same audit trail) as scanning the whole list in one pass. -/
theorem scan_prefix_compositional (p r : List CommitContext) (ip : Option (List String)) :
    scanCommits (p ++ r) ip =
      finalizeScan (r.foldl scanStep (p.foldl scanStep (initScanState ip))) := by
  simp [scanCommits, List.foldl_append]

/-- C9: The core never raises an error for any input: a missing branch name
or message is treated as empty text with revert depth 0; a malformed
nested-quote revert message stops unwrapping at the last successfully parsed
depth (the final inner text admits no further unwrap step); and identifiers
with leading-zero numbers or team keys longer than seven characters are
silently excluded; every function of the embedding is total, so every failure
mode is an empty result for that commit rather than an exception. -/
theorem core_total_on_malformed_input :
    (getRevertBranchDepth none = 0 ∧ getRevertMessageDepth none = 0) ∧
    (∀ sha : String,
      extractLinearIssueIdentifiersForCommit ⟨sha, none, none⟩ =
        extractLinearIssueIdentifiersForCommit ⟨sha, some (""), some ("")⟩ ∧
      extractRevertedIssueIdentifiersForCommit ⟨sha, none, none⟩ =
        extractRevertedIssueIdentifiersForCommit ⟨sha, some (""), some ("")⟩ ∧
      extractPullRequestNumbersForCommit ⟨sha, none, none⟩ =
        extractPullRequestNumbersForCommit ⟨sha, some (""), some ("")⟩) ∧
    (∀ s : String, stepMessage (parseRevertMessage s).inner.data = none ∧
      stepBranch (parseRevertBranch s).inner.data = none) ∧
    (idsOf (extractLinearIssueIdentifiersForCommit
        ⟨"c1", some ("feature/LIN-0004-test"), none⟩) = [] ∧
     idsOf (extractLinearIssueIdentifiersForCommit
        ⟨"c1", some ("feature/ABCDEFGH-123-too-long"), none⟩) = []) := by
  refine ⟨⟨rfl, rfl⟩, fun sha => ⟨rfl, rfl, rfl⟩, fun s => ⟨parseRevertMessage_stops s, parseRevertBranch_stops s⟩, by decide, by decide⟩

/-- C4: `extractPullRequestNumbersForCommit` returns the empty list for any
message beginning with the quoted-revert wrapper (`Revert "`,
case-insensitively, as the wrapper pattern of the source is) regardless of
any `#digits` inside it, and for any commit whose branch revert depth is odd;
otherwise the squash rule (first line ending in `(#digits)`) and the merge
rule (message starting with `Merge pull request #digits`) are checked
independently and both resulting numbers are kept when both match, and the
whole-message `#digits` fallback scan runs only when neither rule produced a
number; the returned list is deduplicated in discovery order. -/
theorem extractPullRequestNumbers_rules (c : CommitContext) :
    (ciStarts (("revert \"").data) (orEmpty c.message).data = true →
        extractPullRequestNumbersForCommit c = []) ∧
    (getRevertBranchDepth c.branchName % 2 = 1 →
        extractPullRequestNumbersForCommit c = []) ∧
    (ciStarts (("revert \"").data) (orEmpty c.message).data = false →
      getRevertBranchDepth c.branchName % 2 = 0 →
        ((squashNumber (firstLine (orEmpty c.message).data)).toList ++
            (mergeNumber (orEmpty c.message).data).toList ≠ [] →
          extractPullRequestNumbersForCommit c =
            dedupNatAux []
              ((squashNumber (firstLine (orEmpty c.message).data)).toList ++
               (mergeNumber (orEmpty c.message).data).toList)) ∧
        (squashNumber (firstLine (orEmpty c.message).data) = none →
          mergeNumber (orEmpty c.message).data = none →
          extractPullRequestNumbersForCommit c =
            dedupNatAux []
              (fallbackPRsF ((orEmpty c.message).data.length + 1) (orEmpty c.message).data))) := by
  refine ⟨?_, ?_, ?_⟩
  · intro h
    simp [extractPullRequestNumbersForCommit, h]
  · intro h
    by_cases hci : ciStarts (("revert \"").data) (orEmpty c.message).data = true
    · simp [extractPullRequestNumbersForCommit, hci]
    · simp [extractPullRequestNumbersForCommit, hci, h]
  · intro hci hd
    have hd1 : ¬(getRevertBranchDepth c.branchName % 2 = 1) := by omega
    constructor
    · intro hbase
      simp only [extractPullRequestNumbersForCommit, hci, Bool.false_eq_true, if_false,
        beq_iff_eq, hd1, List.isEmpty_iff, hbase, if_false]
    · intro hsq hmg
      simp only [extractPullRequestNumbersForCommit, hci, Bool.false_eq_true, if_false,
        beq_iff_eq, hd1, hsq, hmg, Option.toList_none, List.append_nil, List.isEmpty_nil,
        if_true]

theorem extractPullRequestNumbers_rules_witness :
    (ciStarts (("revert \"").data)
        (orEmpty (some ("Merge pull request #5 (#6)"))).data = false ∧
      getRevertBranchDepth none % 2 = 0 ∧
      extractPullRequestNumbersForCommit ⟨"w1", none, some ("Merge pull request #5 (#6)")⟩ =
        dedupNatAux []
          ((squashNumber (firstLine (orEmpty (some ("Merge pull request #5 (#6)"))).data)).toList ++
           (mergeNumber (orEmpty (some ("Merge pull request #5 (#6)"))).data).toList)) ∧
    extractPullRequestNumbersForCommit ⟨"w1", none, some ("Merge pull request #5 (#6)")⟩ = [6, 5] :=
  ⟨⟨by decide, by decide,
    ((extractPullRequestNumbers_rules ⟨"w1", none, some ("Merge pull request #5 (#6)")⟩).2.2
        (by decide) (by decide)).1 (by decide)⟩,
   by decide⟩

theorem dedupEIAux_subset : ∀ (l : List ExtractedIdentifier) (seen : List String),
    ∀ e ∈ dedupEIAux seen l, e ∈ l := by
  intro l
  induction l with
  | nil => intro seen e he; simpa [dedupEIAux] using he
  | cons a t ih =>
    intro seen e he
    unfold dedupEIAux at he
    by_cases ha : a.identifier ∈ seen
    · rw [if_pos ha] at he
      exact List.mem_cons_of_mem a (ih seen e he)
    · rw [if_neg ha] at he
      rcases List.mem_cons.mp he with h | h
      · simp [h]
      · exact List.mem_cons_of_mem a (ih _ e h)

theorem dedupEIAux_ids_nodup : ∀ (l : List ExtractedIdentifier) (seen : List String),
    (idsOf (dedupEIAux seen l)).Nodup ∧ ∀ x ∈ idsOf (dedupEIAux seen l), x ∉ seen := by
  intro l
  induction l with
  | nil => intro seen; simp [dedupEIAux, idsOf]
  | cons a t ih =>
    intro seen
    unfold dedupEIAux
    by_cases ha : a.identifier ∈ seen
    · simpa [ha] using ih seen
    · rw [if_neg ha]
      have ih2 := ih (a.identifier :: seen)
      constructor
      · simp only [idsOf, List.map_cons, List.nodup_cons]
        refine ⟨fun hmem => ?_, ih2.1⟩
        exact (ih2.2 a.identifier hmem) (by simp)
      · intro x hx
        simp only [idsOf, List.map_cons, List.mem_cons] at hx
        rcases hx with hx | hx
        · rw [hx]; exact ha
        · intro hxs
          exact (ih2.2 x hx) (by simp [hxs])

theorem dedupEIAux_ids_complete : ∀ (l : List ExtractedIdentifier) (seen : List String) (x : String),
    x ∈ idsOf l → x ∈ seen ∨ x ∈ idsOf (dedupEIAux seen l) := by
  intro l
  induction l with
  | nil => intro seen x hx; simp [idsOf] at hx
  | cons a t ih =>
    intro seen x hx
    simp only [idsOf, List.map_cons, List.mem_cons] at hx
    unfold dedupEIAux
    by_cases ha : a.identifier ∈ seen
    · rw [if_pos ha]
      rcases hx with hx | hx
      · left; rwa [hx]
      · exact ih seen x hx
    · rw [if_neg ha]
      rcases hx with hx | hx
      · right; simp [idsOf, hx]
      · rcases ih (a.identifier :: seen) x hx with h | h
        · rcases List.mem_cons.mp h with h | h
          · right; simp [idsOf, h]
          · left; exact h
        · right; simp only [idsOf, List.map_cons, List.mem_cons]; right; exact h

/-- C2: `extractLinearIssueIdentifiersForCommit` returns the empty list
whenever the commit's branch revert depth is odd or its message revert depth
is odd; otherwise it returns the union of all boundary-respecting identifiers
found in the depth-stripped branch text and the magic-word-gated identifiers
found in the original (unstripped) message text, deduplicated by canonical
identifier in first-seen order (the identifier list of the result has no
duplicates). -/
theorem extractAdded_depth_gating (c : CommitContext) :
    ((parseRevertBranch (orEmpty c.branchName)).depth % 2 = 1 ∨
        (parseRevertMessage (orEmpty c.message)).depth % 2 = 1 →
      extractLinearIssueIdentifiersForCommit c = []) ∧
    ((parseRevertBranch (orEmpty c.branchName)).depth % 2 = 0 →
      (parseRevertMessage (orEmpty c.message)).depth % 2 = 0 →
      extractLinearIssueIdentifiersForCommit c =
        dedupEIAux []
          ((matchAllIdentifiers (parseRevertBranch (orEmpty c.branchName)).inner).map
              (fun m => ⟨m.identifier, IdSource.branch_name⟩) ++
           (matchMagicWordIdentifiers (orEmpty c.message)).map
              (fun m => ⟨m.identifier, IdSource.commit_message⟩)) ∧
      (idsOf (extractLinearIssueIdentifiersForCommit c)).Nodup) := by
  constructor
  · intro h
    unfold extractLinearIssueIdentifiersForCommit
    rcases h with h | h
    · simp [h]
    · by_cases hb : ((parseRevertBranch (orEmpty c.branchName)).depth % 2 == 1) = true
      · simp [hb]
      · simp only [hb, Bool.false_eq_true, if_false, h]
        simp
  · intro hb hm
    have hb' : ((parseRevertBranch (orEmpty c.branchName)).depth % 2 == 1) = false := by
      simp only [beq_eq_false_iff_ne, ne_eq]
      omega
    have hm' : ((parseRevertMessage (orEmpty c.message)).depth % 2 == 1) = false := by
      simp only [beq_eq_false_iff_ne, ne_eq]
      omega
    have heq : extractLinearIssueIdentifiersForCommit c =
        dedupEIAux []
          ((matchAllIdentifiers (parseRevertBranch (orEmpty c.branchName)).inner).map
              (fun m => ⟨m.identifier, IdSource.branch_name⟩) ++
           (matchMagicWordIdentifiers (orEmpty c.message)).map
              (fun m => ⟨m.identifier, IdSource.commit_message⟩)) := by
      unfold extractLinearIssueIdentifiersForCommit
      simp [hb', hm']
    refine ⟨heq, ?_⟩
    rw [heq]
    exact (dedupEIAux_ids_nodup _ []).1

theorem extractAdded_depth_gating_witness :
    ((parseRevertBranch (orEmpty (some ("feature/eng-123-awesome-change")))).depth % 2 = 0 ∧
     (parseRevertMessage (orEmpty (some ("Fixed ENG-123, see ENG-123")))).depth % 2 = 0) ∧
    extractLinearIssueIdentifiersForCommit
        ⟨"abc123", some ("feature/eng-123-awesome-change"), some ("Fixed ENG-123, see ENG-123")⟩ =
      dedupEIAux []
        ((matchAllIdentifiers
            (parseRevertBranch (orEmpty (some ("feature/eng-123-awesome-change")))).inner).map
            (fun m => ⟨m.identifier, IdSource.branch_name⟩) ++
         (matchMagicWordIdentifiers (orEmpty (some ("Fixed ENG-123, see ENG-123")))).map
            (fun m => ⟨m.identifier, IdSource.commit_message⟩)) :=
  ⟨⟨by decide, by decide⟩,
   ((extractAdded_depth_gating
      ⟨"abc123", some ("feature/eng-123-awesome-change"), some ("Fixed ENG-123, see ENG-123")⟩).2
      (by decide) (by decide)).1⟩

/-- C3: `extractRevertedIssueIdentifiersForCommit` (modelled from the spec,
its implementation not being under src) returns the empty list when both the
branch revert depth and the message revert depth are 0; when the branch depth
is odd it includes every identifier found in the unwrapped branch inner text,
when the message depth is odd it includes the magic-word-gated identifiers
found in the unwrapped message inner text, and even depths contribute
nothing; the result is the deduplicated union: every element traces back to
an odd-depth branch or message contribution and the identifier list has no
duplicates. -/
theorem extractReverted_characterization (c : CommitContext) :
    ((parseRevertBranch (orEmpty c.branchName)).depth = 0 →
      (parseRevertMessage (orEmpty c.message)).depth = 0 →
      extractRevertedIssueIdentifiersForCommit c = []) ∧
    ((parseRevertBranch (orEmpty c.branchName)).depth % 2 = 1 →
      ∀ m ∈ matchAllIdentifiers (parseRevertBranch (orEmpty c.branchName)).inner,
        m.identifier ∈ idsOf (extractRevertedIssueIdentifiersForCommit c)) ∧
    ((parseRevertMessage (orEmpty c.message)).depth % 2 = 1 →
      ∀ m ∈ matchMagicWordIdentifiers (parseRevertMessage (orEmpty c.message)).inner,
        m.identifier ∈ idsOf (extractRevertedIssueIdentifiersForCommit c)) ∧
    ((parseRevertBranch (orEmpty c.branchName)).depth % 2 = 0 →
      ∀ e ∈ extractRevertedIssueIdentifiersForCommit c, e.source ≠ IdSource.branch_name) ∧
    ((parseRevertMessage (orEmpty c.message)).depth % 2 = 0 →
      ∀ e ∈ extractRevertedIssueIdentifiersForCommit c, e.source ≠ IdSource.commit_message) ∧
    (∀ e ∈ extractRevertedIssueIdentifiersForCommit c,
      (e.source = IdSource.branch_name →
        (parseRevertBranch (orEmpty c.branchName)).depth % 2 = 1 ∧
        e.identifier ∈ (matchAllIdentifiers (parseRevertBranch (orEmpty c.branchName)).inner).map
          IdMatch.identifier) ∧
      (e.source = IdSource.commit_message →
        (parseRevertMessage (orEmpty c.message)).depth % 2 = 1 ∧
        e.identifier ∈ (matchMagicWordIdentifiers (parseRevertMessage (orEmpty c.message)).inner).map
          IdMatch.identifier)) ∧
    (idsOf (extractRevertedIssueIdentifiersForCommit c)).Nodup := by
  by_cases h0 : (parseRevertBranch (orEmpty c.branchName)).depth = 0 ∧
      (parseRevertMessage (orEmpty c.message)).depth = 0
  · have hE : extractRevertedIssueIdentifiersForCommit c = [] := by
      unfold extractRevertedIssueIdentifiersForCommit
      simp [h0.1, h0.2]
    refine ⟨fun _ _ => hE, ?_, ?_, ?_, ?_, ?_, ?_⟩
    · intro hb
      omega
    · intro hm
      omega
    · intro _ e he; rw [hE] at he; simp at he
    · intro _ e he; rw [hE] at he; simp at he
    · intro e he; rw [hE] at he; simp at he
    · rw [hE]; simp [idsOf]
  · have hcond : ((parseRevertBranch (orEmpty c.branchName)).depth == 0 &&
        (parseRevertMessage (orEmpty c.message)).depth == 0) = false := by
      rcases Decidable.not_and_iff_or_not.mp h0 with h | h <;> simp [h]
    have hE : extractRevertedIssueIdentifiersForCommit c =
        dedupEIAux []
          ((if (parseRevertBranch (orEmpty c.branchName)).depth % 2 == 1 then
              (matchAllIdentifiers (parseRevertBranch (orEmpty c.branchName)).inner).map
                (fun m => ⟨m.identifier, IdSource.branch_name⟩)
            else []) ++
           (if (parseRevertMessage (orEmpty c.message)).depth % 2 == 1 then
              (matchMagicWordIdentifiers (parseRevertMessage (orEmpty c.message)).inner).map
                (fun m => ⟨m.identifier, IdSource.commit_message⟩)
            else [])) := by
      unfold extractRevertedIssueIdentifiersForCommit
      rw [if_neg (by simp [hcond])]
    refine ⟨fun hb hm => absurd ⟨hb, hm⟩ h0, ?_, ?_, ?_, ?_, ?_, ?_⟩
    · intro hb m hm
      have hmem : m.identifier ∈ idsOf
          ((if (parseRevertBranch (orEmpty c.branchName)).depth % 2 == 1 then
              (matchAllIdentifiers (parseRevertBranch (orEmpty c.branchName)).inner).map
                (fun m => ⟨m.identifier, IdSource.branch_name⟩)
            else []) ++
           (if (parseRevertMessage (orEmpty c.message)).depth % 2 == 1 then
              (matchMagicWordIdentifiers (parseRevertMessage (orEmpty c.message)).inner).map
                (fun m => ⟨m.identifier, IdSource.commit_message⟩)
            else [])) := by
        simp only [hb, beq_self_eq_true, if_pos, idsOf, List.map_append, List.mem_append,
          List.map_map]
        left
        exact List.mem_map.mpr ⟨m, hm, rfl⟩
      rw [hE]
      rcases dedupEIAux_ids_complete _ [] _ hmem with h | h
      · simp at h
      · exact h
    · intro hm m hmem0
      have hmem : m.identifier ∈ idsOf
          ((if (parseRevertBranch (orEmpty c.branchName)).depth % 2 == 1 then
              (matchAllIdentifiers (parseRevertBranch (orEmpty c.branchName)).inner).map
                (fun m => ⟨m.identifier, IdSource.branch_name⟩)
            else []) ++
           (if (parseRevertMessage (orEmpty c.message)).depth % 2 == 1 then
              (matchMagicWordIdentifiers (parseRevertMessage (orEmpty c.message)).inner).map
                (fun m => ⟨m.identifier, IdSource.commit_message⟩)
            else [])) := by
        simp only [hm, beq_self_eq_true, if_pos, idsOf, List.map_append, List.mem_append,
          List.map_map]
        right
        exact List.mem_map.mpr ⟨m, hmem0, rfl⟩
      rw [hE]
      rcases dedupEIAux_ids_complete _ [] _ hmem with h | h
      · simp at h
      · exact h
    · intro hb e he
      rw [hE] at he
      have := dedupEIAux_subset _ [] e he
      have hb' : ((parseRevertBranch (orEmpty c.branchName)).depth % 2 == 1) = false := by
        simp only [beq_eq_false_iff_ne, ne_eq]; omega
      rw [hb'] at this
      simp only [Bool.false_eq_true, if_false, List.nil_append] at this
      by_cases hmcase : ((parseRevertMessage (orEmpty c.message)).depth % 2 == 1) = true
      · rw [if_pos hmcase] at this
        rcases List.mem_map.mp this with ⟨m, _, rfl⟩
        simp
      · simp only [hmcase, Bool.false_eq_true, if_false] at this
        simp at this
    · intro hm e he
      rw [hE] at he
      have := dedupEIAux_subset _ [] e he
      have hm' : ((parseRevertMessage (orEmpty c.message)).depth % 2 == 1) = false := by
        simp only [beq_eq_false_iff_ne, ne_eq]; omega
      rw [hm'] at this
      simp only [Bool.false_eq_true, if_false, List.append_nil] at this
      by_cases hbcase : ((parseRevertBranch (orEmpty c.branchName)).depth % 2 == 1) = true
      · rw [if_pos hbcase] at this
        rcases List.mem_map.mp this with ⟨m, _, rfl⟩
        simp
      · simp only [hbcase, Bool.false_eq_true, if_false] at this
        simp at this
    · intro e he
      rw [hE] at he
      have hsub := dedupEIAux_subset _ [] e he
      rcases List.mem_append.mp hsub with hleft | hright
      · by_cases hbcase : ((parseRevertBranch (orEmpty c.branchName)).depth % 2 == 1) = true
        · rw [if_pos hbcase] at hleft
          rcases List.mem_map.mp hleft with ⟨m, hm, rfl⟩
          constructor
          · intro _
            exact ⟨by simpa using hbcase, List.mem_map.mpr ⟨m, hm, rfl⟩⟩
          · intro hsrc
            simp at hsrc
        · simp only [hbcase, Bool.false_eq_true, if_false] at hleft
          simp at hleft
      · by_cases hmcase : ((parseRevertMessage (orEmpty c.message)).depth % 2 == 1) = true
        · rw [if_pos hmcase] at hright
          rcases List.mem_map.mp hright with ⟨m, hm, rfl⟩
          constructor
          · intro hsrc
            simp at hsrc
          · intro _
            exact ⟨by simpa using hmcase, List.mem_map.mpr ⟨m, hm, rfl⟩⟩
        · simp only [hmcase, Bool.false_eq_true, if_false] at hright
          simp at hright
    · rw [hE]
      exact (dedupEIAux_ids_nodup _ []).1

theorem extractReverted_characterization_witness :
    (parseRevertBranch (orEmpty (some ("revert-571-romain/bac-39")))).depth % 2 = 1 ∧
    { identifier := "BAC-39", rawIdentifier := "bac-39" } ∈
      matchAllIdentifiers (parseRevertBranch (orEmpty (some ("revert-571-romain/bac-39")))).inner ∧
    "BAC-39" ∈ idsOf (extractRevertedIssueIdentifiersForCommit
      ⟨"abc", some ("revert-571-romain/bac-39"), some ("Revert \"Add TEST variable to .env.example\"")⟩) :=
  ⟨by decide, by decide,
   (extractReverted_characterization
      ⟨"abc", some ("revert-571-romain/bac-39"),
        some ("Revert \"Add TEST variable to .env.example\"")⟩).2.1
     (by decide) { identifier := "BAC-39", rawIdentifier := "bac-39" } (by decide)⟩

theorem char_toNat_ofNat_valid (n : Nat) (h : n.isValidChar) : (Char.ofNat n).toNat = n := by
  simp [Char.ofNat, h, Char.ofNatAux, Char.toNat, UInt32.toNat]

theorem char_eq_iff_toNat (c d : Char) : c = d ↔ c.toNat = d.toNat := by
  constructor
  · intro h; rw [h]
  · intro h
    have hc := congrArg Char.ofNat h
    rwa [Char.ofNat_toNat, Char.ofNat_toNat] at hc

theorem uint32_le_iff_toNat (a b : UInt32) : a ≤ b ↔ a.toNat ≤ b.toNat := by
  simp [UInt32.le_def, BitVec.le_def, UInt32.toNat]

theorem isLower_iff_toNat (c : Char) : c.isLower = true ↔ 97 ≤ c.toNat ∧ c.toNat ≤ 122 := by
  simp [Char.isLower, uint32_le_iff_toNat, Char.toNat, UInt32.size]

theorem isUpper_iff_toNat (c : Char) : c.isUpper = true ↔ 65 ≤ c.toNat ∧ c.toNat ≤ 90 := by
  simp [Char.isUpper, uint32_le_iff_toNat, Char.toNat, UInt32.size]

theorem isDigit_iff_toNat (c : Char) : c.isDigit = true ↔ 48 ≤ c.toNat ∧ c.toNat ≤ 57 := by
  simp [Char.isDigit, uint32_le_iff_toNat, Char.toNat, UInt32.size]

theorem toUpper_toNat (c : Char) :
    c.toUpper.toNat = if 97 ≤ c.toNat ∧ c.toNat ≤ 122 then c.toNat - 32 else c.toNat := by
  unfold Char.toUpper
  by_cases h : c.toNat ≥ 97 ∧ c.toNat ≤ 122
  · have hv : (c.toNat - 32).isValidChar := by
      unfold Nat.isValidChar
      left
      omega
    rw [if_pos h, if_pos (by omega)]
    · exact char_toNat_ofNat_valid _ hv
  · rw [if_neg h, if_neg (by omega)]

theorem isWordChar_iff_toNat (c : Char) : isWordChar c = true ↔
    (65 ≤ c.toNat ∧ c.toNat ≤ 90) ∨ (97 ≤ c.toNat ∧ c.toNat ≤ 122) ∨
    (48 ≤ c.toNat ∧ c.toNat ≤ 57) ∨ c.toNat = 95 := by
  have h95 : ('_').toNat = 95 := by decide
  simp only [isWordChar, Char.isAlpha, Bool.or_eq_true, isUpper_iff_toNat, isLower_iff_toNat,
    isDigit_iff_toNat, beq_iff_eq, char_eq_iff_toNat, h95]
  tauto

theorem isWordChar_toUpper (c : Char) : isWordChar c.toUpper = isWordChar c := by
  rw [Bool.eq_iff_iff, isWordChar_iff_toNat, isWordChar_iff_toNat, toUpper_toNat]
  by_cases h : 97 ≤ c.toNat ∧ c.toNat ≤ 122
  · rw [if_pos h]
    omega
  · rw [if_neg h]

theorem not_isLower_toUpper (c : Char) : c.toUpper.isLower = false := by
  cases h : c.toUpper.isLower with
  | false => rfl
  | true =>
    exfalso
    have hb := (isLower_iff_toNat c.toUpper).mp h
    rw [toUpper_toNat] at hb
    by_cases hc : 97 ≤ c.toNat ∧ c.toNat ≤ 122
    · rw [if_pos hc] at hb
      omega
    · rw [if_neg hc] at hb
      exact hc hb

theorem tryIdMatch_canonical (s : Chars) (m : IdMatch) (r : Chars)
    (h : tryIdMatch s = some (some m, r)) : isCanonicalIdentifier m.identifier = true := by
  unfold tryIdMatch at h
  cases h1 : takeRun isWordChar s with
  | mk key r1 =>
    rw [h1] at h
    dsimp only at h
    by_cases hk : (key.length == 0 || decide (7 < key.length)) = true
    · simp [hk] at h
    · rw [if_neg hk] at h
      cases r1 with
      | nil => simp at h
      | cons r0 r2 =>
        by_cases hr0 : r0 = '-'
        · subst hr0
          simp only [] at h
          cases h2 : takeRun Char.isDigit r2 with
          | mk ds r3 =>
            rw [h2] at h
            by_cases hd : (ds.length == 0 || decide (9 < ds.length)) = true
            · simp [hd] at h
            · rw [if_neg hd] at h
              by_cases hbd : (endBoundaryOk r3 && noVersionSuffix r3) = true
              · rw [if_pos hbd] at h
                by_cases hz : noLeadingZero ds = true
                · rw [if_pos hz] at h
                  simp only [Option.some.injEq, Prod.mk.injEq] at h
                  have hm : m = { identifier := ⟨key.map Char.toUpper ++ '-' :: ds⟩,
                                  rawIdentifier := ⟨key ++ '-' :: ds⟩ } := h.1.symm
                  subst hm
                  simp only [not_or, Bool.or_eq_true, beq_iff_eq, decide_eq_true_eq] at hk hd
                  have hkey := takeRun_fst_all isWordChar s
                  rw [h1] at hkey
                  have hds := takeRun_fst_all Char.isDigit r2
                  rw [h2] at hds
                  unfold isCanonicalIdentifier
                  have hrun : takeRun isWordChar (key.map Char.toUpper ++ '-' :: ds) =
                      (key.map Char.toUpper, '-' :: ds) := by
                    apply takeRun_all_stop
                    · intro c hc
                      rcases List.mem_map.mp hc with ⟨d, hd2, rfl⟩
                      rw [isWordChar_toUpper]
                      exact hkey d hd2
                    · decide
                  have hsd : (String.mk (key.map Char.toUpper ++ '-' :: ds)).data =
                      key.map Char.toUpper ++ '-' :: ds := rfl
                  rw [hsd, hrun]
                  simp only []
                  have hrun2 : takeRun Char.isDigit ds = (ds, []) := by
                    apply takeRun_all
                    intro c hc
                    exact hds c hc
                  rw [hrun2]
                  have hall : ∀ x ∈ List.map Char.toUpper key, x.isLower = false := by
                    intro x hx
                    rcases List.mem_map.mp hx with ⟨d, _, rfl⟩
                    exact not_isLower_toUpper d
                  simp only [List.length_map, List.isEmpty_nil, Bool.and_eq_true, bne_iff_ne,
                    ne_eq, Bool.not_eq_true', decide_eq_false_iff_not, List.all_eq_true,
                    Bool.not_eq_true, true_and]
                  simp_all
                · simp [hz] at h
              · simp [hbd] at h
        · cases r0 <;> simp_all

theorem scanIdsF_canonical : ∀ (f : Nat) (s : Chars) (b : Bool),
    ∀ m ∈ scanIdsF f s b, isCanonicalIdentifier m.identifier = true := by
  intro f
  induction f with
  | zero => intro s b m hm; simp [scanIdsF] at hm
  | succ f ih =>
    intro s b m hm
    cases s with
    | nil => simp [scanIdsF] at hm
    | cons c cs =>
      unfold scanIdsF at hm
      by_cases hb : b = true
      · rw [if_pos hb] at hm
        cases ht : tryIdMatch (c :: cs) with
        | some pr =>
          cases pr with
          | mk mo rest =>
            rw [ht] at hm
            dsimp only at hm
            rcases List.mem_append.mp hm with hml | hmr
            · cases mo with
              | none => simp at hml
              | some m0 =>
                simp only [Option.toList_some, List.mem_singleton] at hml
                subst hml
                exact tryIdMatch_canonical _ _ _ ht
            · exact ih rest false m hmr
        | none =>
          rw [ht] at hm
          exact ih cs _ m hm
      · rw [if_neg hb] at hm
        exact ih cs _ m hm

theorem matchAllIdentifiers_canonical (s : String) :
    ∀ m ∈ matchAllIdentifiers s, isCanonicalIdentifier m.identifier = true := by
  intro m hm
  exact scanIdsF_canonical _ _ _ m hm

theorem matchMagicWordIdentifiers_canonical (s : String) :
    ∀ m ∈ matchMagicWordIdentifiers s, isCanonicalIdentifier m.identifier = true := by
  intro m hm
  unfold matchMagicWordIdentifiers at hm
  rcases List.mem_flatMap.mp hm with ⟨line, _, hline⟩
  unfold magicLineMatches at hline
  rcases List.mem_flatMap.mp hline with ⟨span, _, hspan⟩
  exact scanIdsF_canonical _ _ _ m hspan

/-- C6: Every identifier produced by either extraction entry point is in
canonical form: an upper-cased team key of 1 to 7 word characters, a hyphen,
and a number of 1 to 9 decimal digits with no leading zero (so the canonical
number re-stringifies to exactly the digits matched). -/
theorem extracted_identifiers_canonical (c : CommitContext) (e : ExtractedIdentifier)
    (h : e ∈ extractLinearIssueIdentifiersForCommit c ∨
         e ∈ extractRevertedIssueIdentifiersForCommit c) :
    isCanonicalIdentifier e.identifier = true := by
  rcases h with h | h
  · unfold extractLinearIssueIdentifiersForCommit at h
    by_cases hb : ((parseRevertBranch (orEmpty c.branchName)).depth % 2 == 1) = true
    · rw [if_pos hb] at h
      simp at h
    · rw [if_neg hb] at h
      by_cases hm : ((parseRevertMessage (orEmpty c.message)).depth % 2 == 1) = true
      · rw [if_pos hm] at h
        simp at h
      · rw [if_neg hm] at h
        have hsub := dedupEIAux_subset _ _ _ h
        rcases List.mem_append.mp hsub with hx | hx
        · rcases List.mem_map.mp hx with ⟨m, hmem, rfl⟩
          exact matchAllIdentifiers_canonical _ m hmem
        · rcases List.mem_map.mp hx with ⟨m, hmem, rfl⟩
          exact matchMagicWordIdentifiers_canonical _ m hmem
  · unfold extractRevertedIssueIdentifiersForCommit at h
    by_cases h0 : (((parseRevertBranch (orEmpty c.branchName)).depth == 0) &&
        ((parseRevertMessage (orEmpty c.message)).depth == 0)) = true
    · rw [if_pos h0] at h
      simp at h
    · rw [if_neg h0] at h
      have hsub := dedupEIAux_subset _ _ _ h
      rcases List.mem_append.mp hsub with hx | hx
      · by_cases hb : ((parseRevertBranch (orEmpty c.branchName)).depth % 2 == 1) = true
        · rw [if_pos hb] at hx
          rcases List.mem_map.mp hx with ⟨m, hmem, rfl⟩
          exact matchAllIdentifiers_canonical _ m hmem
        · rw [if_neg hb] at hx
          simp at hx
      · by_cases hm : ((parseRevertMessage (orEmpty c.message)).depth % 2 == 1) = true
        · rw [if_pos hm] at hx
          rcases List.mem_map.mp hx with ⟨m, hmem, rfl⟩
          exact matchMagicWordIdentifiers_canonical _ m hmem
        · rw [if_neg hm] at hx
          simp at hx

theorem extracted_identifiers_canonical_witness :
    ({ identifier := "ENG-123", source := IdSource.branch_name } ∈
        extractLinearIssueIdentifiersForCommit
          ⟨"abc123", some ("feature/ENG-123-awesome-change"), some ("Some message")⟩) ∧
    isCanonicalIdentifier ("ENG-123") = true :=
  ⟨by decide,
   extracted_identifiers_canonical
     ⟨"abc123", some ("feature/ENG-123-awesome-change"), some ("Some message")⟩
     { identifier := "ENG-123", source := IdSource.branch_name }
     (Or.inl (by decide))⟩

theorem tryCore_split (s t r : Chars) (h : tryCore s = some (t, r)) : s = t ++ r := by
  unfold tryCore at h
  cases h1 : takeRun isWordChar s with
  | mk key r1 =>
    rw [h1] at h
    dsimp only at h
    have hs : s = key ++ r1 := by
      have := takeRun_append isWordChar s
      rw [h1] at this
      exact this.symm
    by_cases hk : (key.length == 0 || decide (7 < key.length)) = true
    · simp [hk] at h
    · rw [if_neg hk] at h
      cases r1 with
      | nil => simp at h
      | cons r0 r2 =>
        by_cases hr0 : r0 = '-'
        · subst hr0
          simp only [] at h
          cases h2 : takeRun Char.isDigit r2 with
          | mk ds r3 =>
            rw [h2] at h
            have hr2 : r2 = ds ++ r3 := by
              have := takeRun_append Char.isDigit r2
              rw [h2] at this
              exact this.symm
            by_cases hd0 : (ds.length == 0) = true
            · simp [hd0] at h
            · rw [if_neg hd0] at h
              by_cases hd9 : (decide (9 < ds.length)) = true
              · rw [if_pos hd9] at h
                simp only [Option.some.injEq, Prod.mk.injEq] at h
                rw [hs, hr2, ← h.1, ← h.2]
                simp only [List.cons_append, List.append_assoc, ← List.append_assoc (ds.take 9),
                  List.take_append_drop]
              · rw [if_neg hd9] at h
                by_cases hv : noVersionSuffix r3 = true
                · rw [if_pos hv] at h
                  simp only [Option.some.injEq, Prod.mk.injEq] at h
                  rw [hs, hr2, ← h.1, ← h.2]
                  simp
                · rw [if_neg hv] at h
                  by_cases h2le : (decide (2 ≤ ds.length)) = true
                  · rw [if_pos h2le] at h
                    simp only [Option.some.injEq, Prod.mk.injEq] at h
                    rw [hs, hr2, ← h.1, ← h.2]
                    simp only [List.cons_append, List.append_assoc,
                      ← List.append_assoc (ds.take (ds.length - 1)), List.take_append_drop]
                  · simp [h2le] at h
        · cases r0 <;> simp_all

theorem sepThenCoreF_zero (prev : Char) (b : Bool) (s : Chars) :
    sepThenCoreF 0 prev b s = none := rfl

theorem sepThenCoreF_succ_nil (f : Nat) (prev : Char) (b : Bool) :
    sepThenCoreF (f + 1) prev b [] = none := rfl

theorem sepThenCoreF_succ (f : Nat) (prev : Char) (b : Bool) (c : Char) (cs : Chars) :
    sepThenCoreF (f + 1) prev b (c :: cs) =
      if jsWhitespace c || c == ',' || c == '&' then
        match sepThenCoreF f c true cs with
        | some (t, rest) => some (c :: t, rest)
        | none => none
      else
        match cs with
        | c2 :: c3 :: cs3 =>
          if (c.toLower == 'a') && (c2.toLower == 'n') && (c3.toLower == 'd')
              && !(isWordChar prev) && wordBreakHere cs3 then
            match sepThenCoreF f c3 true cs3 with
            | some (t, r2) => some (c :: c2 :: c3 :: t, r2)
            | none => if b then tryCore (c :: cs) else none
          else if b then tryCore (c :: cs) else none
        | _ => if b then tryCore (c :: cs) else none := rfl

theorem sepThenCoreF_split : ∀ (f : Nat) (prev : Char) (b : Bool) (s t r : Chars),
    sepThenCoreF f prev b s = some (t, r) → s = t ++ r := by
  intro f
  induction f with
  | zero =>
    intro prev b s t r h
    simp [sepThenCoreF_zero] at h
  | succ f ih =>
    intro prev b s t r h
    cases s with
    | nil => simp [sepThenCoreF_succ_nil] at h
    | cons c cs =>
      rw [sepThenCoreF_succ] at h
      by_cases hsep : (jsWhitespace c || c == ',' || c == '&') = true
      · rw [if_pos hsep] at h
        cases hrec : sepThenCoreF f c true cs with
        | some pr =>
          cases pr with
          | mk t2 r2 =>
            rw [hrec] at h
            simp only [Option.some.injEq, Prod.mk.injEq] at h
            have hcs : cs = t2 ++ r2 := ih c true cs t2 r2 hrec
            rw [← h.1, ← h.2, hcs]
            simp
        | none =>
          rw [hrec] at h
          simp at h
      · rw [if_neg hsep] at h
        cases cs with
        | nil =>
          cases b with
          | true => exact tryCore_split _ _ _ (by simpa using h)
          | false => simp at h
        | cons c2 cs2 =>
          cases cs2 with
          | nil =>
            cases b with
            | true => exact tryCore_split _ _ _ (by simpa using h)
            | false => simp at h
          | cons c3 cs3 =>
            simp only [] at h
            by_cases hand : ((c.toLower == 'a') && (c2.toLower == 'n') && (c3.toLower == 'd')
                && !(isWordChar prev) && wordBreakHere cs3) = true
            · rw [if_pos hand] at h
              cases hrec : sepThenCoreF f c3 true cs3 with
              | some pr =>
                cases pr with
                | mk t2 r2 =>
                  rw [hrec] at h
                  simp only [Option.some.injEq, Prod.mk.injEq] at h
                  have hcs : cs3 = t2 ++ r2 := ih c3 true cs3 t2 r2 hrec
                  rw [← h.1, ← h.2, hcs]
                  simp
              | none =>
                rw [hrec] at h
                cases b with
                | true => exact tryCore_split _ _ _ (by simpa using h)
                | false => simp at h
            · rw [if_neg hand] at h
              cases b with
              | true => exact tryCore_split _ _ _ (by simpa using h)
              | false => simp at h

theorem spanLoopF_split : ∀ (f : Nat) (acc s sp rest : Chars),
    spanLoopF f acc s = (sp, rest) → ∃ u, sp = acc ++ u ∧ s = u ++ rest := by
  intro f
  induction f with
  | zero =>
    intro acc s sp rest h
    simp only [spanLoopF, Prod.mk.injEq] at h
    exact ⟨[], by simp [← h.1], by simp [← h.2]⟩
  | succ f ih =>
    intro acc s sp rest h
    unfold spanLoopF at h
    cases hrec : sepThenCoreF (s.length + 1) (acc.getLastD 'x') false s with
    | some pr =>
      cases pr with
      | mk t r0 =>
        rw [hrec] at h
        have hs : s = t ++ r0 := sepThenCoreF_split _ _ _ s t r0 hrec
        rcases ih (acc ++ t) r0 sp rest h with ⟨u, hu1, hu2⟩
        exact ⟨t ++ u, by simp [hu1], by simp [hs, hu2]⟩
    | none =>
      rw [hrec] at h
      simp only [Prod.mk.injEq] at h
      exact ⟨[], by simp [← h.1], by simp [← h.2]⟩

theorem tryMagicSpan_split (s sp rest : Chars) (h : tryMagicSpan s = some (sp, rest)) :
    s = sp ++ rest := by
  unfold tryMagicSpan at h
  cases hc : tryCore s with
  | some pr =>
    cases pr with
    | mk c0 r0 =>
      rw [hc] at h
      simp only [Option.some.injEq] at h
      have hs : s = c0 ++ r0 := tryCore_split _ _ _ hc
      rcases spanLoopF_split (r0.length + 1) c0 r0 sp rest h with ⟨u, hu1, hu2⟩
      rw [hs, hu1, hu2]
      simp
  | none =>
    rw [hc] at h
    simp at h

theorem tryMagicWord_decomp (w s sp rest : Chars) (h : tryMagicWord w s = some (sp, rest)) :
    ∃ seps, s = s.take w.length ++ seps ++ sp ++ rest ∧ ciStarts w s = true ∧
      seps ≠ [] ∧ ∀ ch ∈ seps, sepColonChar ch = true := by
  unfold tryMagicWord at h
  by_cases hci : ciStarts w s = true
  · rw [if_pos hci] at h
    cases h1 : takeRun sepColonChar (s.drop w.length) with
    | mk seps r1 =>
      rw [h1] at h
      dsimp only at h
      by_cases hs0 : (seps.length == 0) = true
      · simp [hs0] at h
      · rw [if_neg hs0] at h
        have hdrop : s.drop w.length = seps ++ r1 := by
          have := takeRun_append sepColonChar (s.drop w.length)
          rw [h1] at this
          exact this.symm
        have hr1 : r1 = sp ++ rest := tryMagicSpan_split _ _ _ h
        refine ⟨seps, ?_, hci, by simpa using hs0, ?_⟩
        · conv_lhs => rw [← List.take_append_drop w.length s]
          rw [hdrop, hr1]
          simp
        · intro ch hch
          have := takeRun_fst_all sepColonChar (s.drop w.length)
          rw [h1] at this
          exact this ch hch
  · simp [hci] at h

theorem firstMagic_decomp : ∀ (ws : List Chars) (s sp rest : Chars),
    firstMagic ws s = some (sp, rest) → ∃ w ∈ ws, tryMagicWord w s = some (sp, rest) := by
  intro ws
  induction ws with
  | nil => intro s sp rest h; simp [firstMagic] at h
  | cons w ws ih =>
    intro s sp rest h
    unfold firstMagic at h
    cases hw : tryMagicWord w s with
    | some pr =>
      rw [hw] at h
      simp only [Option.some.injEq] at h
      exact ⟨w, by simp, by rw [hw, h]⟩
    | none =>
      rw [hw] at h
      rcases ih s sp rest h with ⟨w2, hw2, hw3⟩
      exact ⟨w2, by simp [hw2], hw3⟩

theorem getLast?_append_right : ∀ (a b : Chars), b ≠ [] → (a ++ b).getLast? = b.getLast? := by
  intro a b hb
  cases b with
  | nil => simp at hb
  | cons x xs =>
    rw [List.getLast?_append]
    have hsome : (x :: xs).getLast?.isSome = true := by
      rw [List.getLast?_isSome]
      simp
    cases hx : (x :: xs).getLast? with
    | none => rw [hx] at hsome; simp at hsome
    | some y => simp

theorem getLast?_eq_none_iff_nil (l : Chars) : l.getLast? = none ↔ l = [] := by
  cases l with
  | nil => simp
  | cons x xs =>
    constructor
    · intro h
      have hsome : (x :: xs).getLast?.isSome = true := by
        rw [List.getLast?_isSome]
        simp
      rw [h] at hsome
      simp at hsome
    · intro h
      simp at h

theorem magicSpansF_decomp : ∀ (f : Nat) (s : Chars) (b : Bool) (span : Chars),
    span ∈ magicSpansF f s b →
    ∃ pre w seps tail w0,
      s = pre ++ w ++ seps ++ span ++ tail ∧
      w0 ∈ magicWords ∧
      w.map Char.toLower = w0.map Char.toLower ∧
      seps ≠ [] ∧ (∀ ch ∈ seps, sepColonChar ch = true) ∧
      (match pre.getLast? with
       | none => b = true
       | some ch => isWordChar ch = false) := by
  intro f
  induction f with
  | zero => intro s b span h; simp [magicSpansF] at h
  | succ f ih =>
    intro s b span h
    cases s with
    | nil => simp [magicSpansF] at h
    | cons c cs =>
      unfold magicSpansF at h
      by_cases hb : b = true
      · rw [if_pos hb] at h
        cases hm : tryMagic (c :: cs) with
        | some pr =>
          cases pr with
          | mk span0 rest =>
            rw [hm] at h
            rcases List.mem_cons.mp h with hsp | hsp
            · subst hsp
              rcases firstMagic_decomp magicWords (c :: cs) span rest hm with ⟨w0, hw0, hw⟩
              rcases tryMagicWord_decomp w0 (c :: cs) span rest hw with ⟨seps, hsplit, hci, hne, hsep⟩
              refine ⟨[], (c :: cs).take w0.length, seps, rest, w0, ?_, hw0, ?_, hne, hsep, ?_⟩
              · simpa using hsplit
              · exact ciStarts_toLower_take w0 (c :: cs) hci
              · simp [hb]
            · rcases ih rest false span hsp with
                ⟨pre2, w2, seps2, tail2, w02, hsplit2, hw02, hlow2, hne2, hsep2, hbd2⟩
              rcases firstMagic_decomp magicWords (c :: cs) span0 rest hm with ⟨w0, hw0, hw⟩
              rcases tryMagicWord_decomp w0 (c :: cs) span0 rest hw with ⟨seps, hsplit, _, _, _⟩
              cases hl : pre2.getLast? with
              | none =>
                rw [hl] at hbd2
                simp at hbd2
              | some ch =>
                rw [hl] at hbd2
                have hpre2ne : pre2 ≠ [] := by
                  intro hnil
                  rw [hnil] at hl
                  simp at hl
                refine ⟨((c :: cs).take w0.length ++ seps ++ span0) ++ pre2,
                  w2, seps2, tail2, w02, ?_, hw02, hlow2, hne2, hsep2, ?_⟩
                · conv_lhs => rw [hsplit, hsplit2]
                  simp
                · rw [getLast?_append_right _ pre2 hpre2ne, hl]
                  exact hbd2
        | none =>
          rw [hm] at h
          rcases ih cs (!(isWordChar c)) span h with
            ⟨pre2, w2, seps2, tail2, w02, hsplit2, hw02, hlow2, hne2, hsep2, hbd2⟩
          cases hl : pre2.getLast? with
          | none =>
            have hnil : pre2 = [] := (getLast?_eq_none_iff_nil pre2).mp hl
            rw [hl] at hbd2
            subst hnil
            refine ⟨[c], w2, seps2, tail2, w02, ?_, hw02, hlow2, hne2, hsep2, ?_⟩
            · rw [hsplit2]; simp
            · simpa using hbd2
          | some ch =>
            rw [hl] at hbd2
            have hpre2ne : pre2 ≠ [] := by
              intro hnil
              rw [hnil] at hl
              simp at hl
            refine ⟨c :: pre2, w2, seps2, tail2, w02, ?_, hw02, hlow2, hne2, hsep2, ?_⟩
            · rw [hsplit2]; simp
            · rw [show c :: pre2 = [c] ++ pre2 from rfl,
                getLast?_append_right [c] pre2 hpre2ne, hl]
              exact hbd2
      · rw [if_neg hb] at h
        rcases ih cs (!(isWordChar c)) span h with
          ⟨pre2, w2, seps2, tail2, w02, hsplit2, hw02, hlow2, hne2, hsep2, hbd2⟩
        cases hl : pre2.getLast? with
        | none =>
          have hnil : pre2 = [] := (getLast?_eq_none_iff_nil pre2).mp hl
          rw [hl] at hbd2
          subst hnil
          refine ⟨[c], w2, seps2, tail2, w02, ?_, hw02, hlow2, hne2, hsep2, ?_⟩
          · rw [hsplit2]; simp
          · simpa using hbd2
        | some ch =>
          rw [hl] at hbd2
          have hpre2ne : pre2 ≠ [] := by
            intro hnil
            rw [hnil] at hl
            simp at hl
          refine ⟨c :: pre2, w2, seps2, tail2, w02, ?_, hw02, hlow2, hne2, hsep2, ?_⟩
          · rw [hsplit2]; simp
          · rw [show c :: pre2 = [c] ++ pre2 from rfl,
              getLast?_append_right [c] pre2 hpre2ne, hl]
            exact hbd2

/-- C5 counterexample: the claim states that an identifier is extracted only
when introduced by a magic word immediately followed by whitespace or a
colon-plus-whitespace.  On the message `fixes:LIN-1` the code extracts
`LIN-1` (the separator regex accepts a bare colon), yet no position of the
line carries a magic word followed by whitespace or colon-plus-whitespace;
URL rewriting and line splitting leave the line unchanged, so the gate
premise of the claim is unsatisfiable while extraction still happens. -/
theorem magic_gate_colon_counterexample :
    (matchMagicWordIdentifiers ("fixes:LIN-1")).map IdMatch.identifier = ["LIN-1"] ∧
    hasMagicGateWS (("fixes:LIN-1").data) true = false ∧
    normalizeLinearUrls (("fixes:LIN-1").data) = ("fixes:LIN-1").data ∧
    splitLinesC (("fixes:LIN-1").data) = [("fixes:LIN-1").data] := by
  refine ⟨by decide, by decide, by decide, by decide⟩

/-- C5 (amended): message-text identifier extraction is magic-word gated: the
message is processed line by line; on each line, Linear issue URLs are first
rewritten to their bare identifiers; every identifier match then comes from a
span that sits immediately after a recognized magic word (case-insensitively)
followed by one or more separator characters, each of which is whitespace or
a colon, with a word boundary before the magic word; in particular a bare
identifier on a line with no such magic-word-and-separator occurrence is
never extracted. -/
theorem magic_word_gating (s : String) :
    matchMagicWordIdentifiers s = (splitLinesC s.data).flatMap magicLineMatches ∧
    (∀ line : Chars, magicLineMatches line =
        (magicSpans line).flatMap (fun span => scanIdsF (span.length + 1) span true)) ∧
    (∀ line : Chars, magicSpans line =
        magicSpansF ((normalizeLinearUrls line).length + 1) (normalizeLinearUrls line) true) ∧
    (∀ line span : Chars, span ∈ magicSpans line →
      ∃ pre w seps tail w0,
        normalizeLinearUrls line = pre ++ w ++ seps ++ span ++ tail ∧
        w0 ∈ magicWords ∧
        w.map Char.toLower = w0.map Char.toLower ∧
        seps ≠ [] ∧ (∀ ch ∈ seps, sepColonChar ch = true) ∧
        (∀ ch, pre.getLast? = some ch → isWordChar ch = false)) := by
  refine ⟨rfl, fun _ => rfl, fun _ => rfl, ?_⟩
  intro line span hmem
  rcases magicSpansF_decomp _ _ _ span hmem with
    ⟨pre, w, seps, tail, w0, hsplit, hw0, hlow, hne, hsep, hbd⟩
  refine ⟨pre, w, seps, tail, w0, hsplit, hw0, hlow, hne, hsep, ?_⟩
  intro ch hch
  rw [hch] at hbd
  exact hbd

theorem magic_word_gating_witness :
    (("LIN-123").data ∈ magicSpans (("Fixes LIN-123").data)) ∧
    (∃ pre w seps tail w0,
      normalizeLinearUrls (("Fixes LIN-123").data) = pre ++ w ++ seps ++ ("LIN-123").data ++ tail ∧
      w0 ∈ magicWords ∧
      w.map Char.toLower = w0.map Char.toLower ∧
      seps ≠ [] ∧ (∀ ch ∈ seps, sepColonChar ch = true) ∧
      (∀ ch, pre.getLast? = some ch → isWordChar ch = false)) :=
  ⟨by decide,
   (magic_word_gating ("Fixes LIN-123")).2.2.2 (("Fixes LIN-123").data) (("LIN-123").data)
     (by decide)⟩

theorem alookup_upsert_self (k : String) (v : α) :
    ∀ m : List (String × α), alookup k (upsert k v m) = some v := by
  intro m
  induction m with
  | nil => simp [upsert, alookup]
  | cons p t ih =>
    cases p with
    | mk k2 v2 =>
      unfold upsert
      by_cases h : k2 = k
      · simp [h, alookup]
      · simp only [h, if_false]
        unfold alookup
        simp [h, ih]

theorem alookup_upsert_ne (k k2 : String) (v : α) (h : k2 ≠ k) :
    ∀ m : List (String × α), alookup k2 (upsert k v m) = alookup k2 m := by
  intro m
  induction m with
  | nil => simp [upsert, alookup, Ne.symm h]
  | cons p t ih =>
    cases p with
    | mk k3 v3 =>
      unfold upsert
      by_cases h3 : k3 = k
      · subst h3
        simp [alookup, Ne.symm h]
      · simp only [h3, if_false]
        unfold alookup
        by_cases h32 : k3 = k2
        · simp [h32]
        · simp [h32, ih]

theorem keys_upsert_subset (k : String) (v : α) :
    ∀ (m : List (String × α)) (x : String),
      x ∈ (upsert k v m).map Prod.fst → x ∈ m.map Prod.fst ∨ x = k := by
  intro m
  induction m with
  | nil =>
    intro x hx
    right
    simpa [upsert] using hx
  | cons p t ih =>
    cases p with
    | mk k2 v2 =>
      intro x hx
      unfold upsert at hx
      by_cases h : k2 = k
      · rw [if_pos h] at hx
        rw [List.map_cons, List.mem_cons] at hx
        rcases hx with hx | hx
        · right; exact hx
        · left
          rw [List.map_cons, List.mem_cons]
          right
          exact hx
      · rw [if_neg h] at hx
        rw [List.map_cons, List.mem_cons] at hx
        rcases hx with hx | hx
        · left
          rw [List.map_cons, List.mem_cons]
          left
          exact hx
        · rcases ih x hx with hx | hx
          · left
            rw [List.map_cons, List.mem_cons]
            right
            exact hx
          · right; exact hx

theorem upsert_keys_nodup (k : String) (v : α) :
    ∀ m : List (String × α), (m.map Prod.fst).Nodup → ((upsert k v m).map Prod.fst).Nodup := by
  intro m
  induction m with
  | nil => intro _; simp [upsert]
  | cons p t ih =>
    cases p with
    | mk k2 v2 =>
      intro hn
      simp only [List.map_cons, List.nodup_cons] at hn
      unfold upsert
      by_cases h : k2 = k
      · subst h
        simpa using hn
      · simp only [h, if_false, List.map_cons, List.nodup_cons]
        refine ⟨?_, ih hn.2⟩
        intro hmem
        rcases keys_upsert_subset k v t k2 hmem with hx | hx
        · exact hn.1 hx
        · exact h hx

theorem alookup_mem (k : String) (v : α) :
    ∀ m : List (String × α), alookup k m = some v → (k, v) ∈ m := by
  intro m
  induction m with
  | nil => intro h; simp [alookup] at h
  | cons p t ih =>
    cases p with
    | mk k2 v2 =>
      intro h
      unfold alookup at h
      by_cases h2 : k2 = k
      · subst h2
        simp at h
        subst h
        simp
      · simp only [h2, if_false] at h
        exact List.mem_cons_of_mem _ (ih h)

theorem mem_alookup (k : String) (v : α) :
    ∀ m : List (String × α), (m.map Prod.fst).Nodup → (k, v) ∈ m → alookup k m = some v := by
  intro m
  induction m with
  | nil => intro _ h; simp at h
  | cons p t ih =>
    cases p with
    | mk k2 v2 =>
      intro hn hmem
      simp only [List.map_cons, List.nodup_cons] at hn
      rcases List.mem_cons.mp hmem with h | h
      · injection h with h1 h2
        subst h1
        subst h2
        simp [alookup]
      · unfold alookup
        by_cases h2 : k2 = k
        · subst h2
          exfalso
          exact hn.1 (List.mem_map.mpr ⟨(k2, v), h, rfl⟩)
        · simp only [h2, if_false]
          exact ih hn.2 h

theorem alookup_pushEntry_self (k : String) (e : β) :
    ∀ m : List (String × List β),
      alookup k (pushEntry k e m) = some ((alookup k m).getD [] ++ [e]) := by
  intro m
  induction m with
  | nil => simp [pushEntry, alookup]
  | cons p t ih =>
    cases p with
    | mk k2 es =>
      unfold pushEntry
      by_cases h : k2 = k
      · subst h
        simp [alookup]
      · simp only [h, if_false]
        unfold alookup
        simp [h, ih]

theorem alookup_pushEntry_ne (k k2 : String) (e : β) (h : k2 ≠ k) :
    ∀ m : List (String × List β), alookup k2 (pushEntry k e m) = alookup k2 m := by
  intro m
  induction m with
  | nil => simp [pushEntry, alookup, Ne.symm h]
  | cons p t ih =>
    cases p with
    | mk k3 es =>
      unfold pushEntry
      by_cases h3 : k3 = k
      · subst h3
        unfold alookup
        simp [Ne.symm h]
      · simp only [h3, if_false]
        unfold alookup
        by_cases h32 : k3 = k2
        · simp [h32]
        · simp [h32, ih]

theorem idsOf_cons (e : ExtractedIdentifier) (t : List ExtractedIdentifier) :
    idsOf (e :: t) = e.identifier :: idsOf t := rfl

theorem foldRev_lastAction (c : CommitContext) :
    ∀ (L : List ExtractedIdentifier) (st : ScanState) (id : String),
      alookup id ((L.foldl (applyReverted c) st).lastAction) =
        if id ∈ idsOf L then some IssueAction.reverted else alookup id st.lastAction := by
  intro L
  induction L with
  | nil => intro st id; simp [idsOf]
  | cons e t ih =>
    intro st id
    rw [List.foldl_cons, ih]
    by_cases ht : id ∈ idsOf t
    · rw [if_pos ht, if_pos (by rw [idsOf_cons]; exact List.mem_cons_of_mem _ ht)]
    · rw [if_neg ht]
      by_cases he : id = e.identifier
      · rw [if_pos (by rw [idsOf_cons, he]; simp)]
        show alookup id (upsert e.identifier IssueAction.reverted st.lastAction) = _
        rw [he, alookup_upsert_self]
      · rw [if_neg (by rw [idsOf_cons]; simp [he, ht])]
        show alookup id (upsert e.identifier IssueAction.reverted st.lastAction) = _
        rw [alookup_upsert_ne _ _ _ he]

theorem foldRev_revertedRefs (c : CommitContext) :
    ∀ (L : List ExtractedIdentifier) (st : ScanState) (id : String),
      alookup id ((L.foldl (applyReverted c) st).revertedRefs) =
        if id ∈ idsOf L then some ⟨id, c.sha⟩ else alookup id st.revertedRefs := by
  intro L
  induction L with
  | nil => intro st id; simp [idsOf]
  | cons e t ih =>
    intro st id
    rw [List.foldl_cons, ih]
    by_cases ht : id ∈ idsOf t
    · rw [if_pos ht, if_pos (by rw [idsOf_cons]; exact List.mem_cons_of_mem _ ht)]
    · rw [if_neg ht]
      by_cases he : id = e.identifier
      · rw [if_pos (by rw [idsOf_cons, he]; simp)]
        show alookup id (upsert e.identifier (⟨e.identifier, c.sha⟩ : IssueReference)
          st.revertedRefs) = _
        rw [he, alookup_upsert_self]
      · rw [if_neg (by rw [idsOf_cons]; simp [he, ht])]
        show alookup id (upsert e.identifier (⟨e.identifier, c.sha⟩ : IssueReference)
          st.revertedRefs) = _
        rw [alookup_upsert_ne _ _ _ he]

theorem foldRev_unchanged (c : CommitContext) :
    ∀ (L : List ExtractedIdentifier) (st : ScanState),
      ((L.foldl (applyReverted c) st).addedRefs = st.addedRefs) ∧
      ((L.foldl (applyReverted c) st).debugSink.issues = st.debugSink.issues) ∧
      ((L.foldl (applyReverted c) st).prNumbers = st.prNumbers) := by
  intro L
  induction L with
  | nil => intro st; exact ⟨rfl, rfl, rfl⟩
  | cons e t ih =>
    intro st
    rw [List.foldl_cons]
    exact ih (applyReverted c st e)

theorem foldRev_nodup (c : CommitContext) :
    ∀ (L : List ExtractedIdentifier) (st : ScanState),
      (st.lastAction.map Prod.fst).Nodup →
      (((L.foldl (applyReverted c) st).lastAction).map Prod.fst).Nodup := by
  intro L
  induction L with
  | nil => intro st h; exact h
  | cons e t ih =>
    intro st h
    rw [List.foldl_cons]
    exact ih _ (upsert_keys_nodup _ _ _ h)

theorem foldRev_debug_unch (c : CommitContext) :
    ∀ (L : List ExtractedIdentifier) (st : ScanState) (id : String), id ∉ idsOf L →
      alookup id ((L.foldl (applyReverted c) st).debugSink.revertedIssues) =
        alookup id st.debugSink.revertedIssues := by
  intro L
  induction L with
  | nil => intro st id _; rfl
  | cons e t ih =>
    intro st id hid
    rw [idsOf_cons, List.mem_cons] at hid
    push_neg at hid
    rw [List.foldl_cons, ih _ id hid.2]
    show alookup id (pushEntry e.identifier _ st.debugSink.revertedIssues) = _
    rw [alookup_pushEntry_ne _ _ _ hid.1]

theorem foldRev_debug_mem (c : CommitContext) :
    ∀ (L : List ExtractedIdentifier) (st : ScanState) (id : String), id ∈ idsOf L →
      ∃ es, alookup id ((L.foldl (applyReverted c) st).debugSink.revertedIssues) = some es ∧
        ∃ e ∈ es, e.sha = c.sha := by
  intro L
  induction L with
  | nil => intro st id h; simp [idsOf] at h
  | cons e t ih =>
    intro st id hid
    rw [List.foldl_cons]
    by_cases ht : id ∈ idsOf t
    · exact ih _ id ht
    · rw [idsOf_cons, List.mem_cons] at hid
      rcases hid with he | he
      · rw [foldRev_debug_unch c t _ id ht]
        show ∃ es, alookup id (pushEntry e.identifier
          (⟨c.sha, e.source, sourceValue c e.source⟩ : IssueSource)
          st.debugSink.revertedIssues) = some es ∧ _
        rw [← he, alookup_pushEntry_self]
        refine ⟨_, rfl, ⟨⟨c.sha, e.source, sourceValue c e.source⟩, ?_, rfl⟩⟩
        simp
      · exact absurd he ht

theorem foldAdd_lastAction (c : CommitContext) :
    ∀ (L : List ExtractedIdentifier) (st : ScanState) (id : String),
      alookup id ((L.foldl (applyAdded c) st).lastAction) =
        if id ∈ idsOf L then some IssueAction.added else alookup id st.lastAction := by
  intro L
  induction L with
  | nil => intro st id; simp [idsOf]
  | cons e t ih =>
    intro st id
    rw [List.foldl_cons, ih]
    by_cases ht : id ∈ idsOf t
    · rw [if_pos ht, if_pos (by rw [idsOf_cons]; exact List.mem_cons_of_mem _ ht)]
    · rw [if_neg ht]
      by_cases he : id = e.identifier
      · rw [if_pos (by rw [idsOf_cons, he]; simp)]
        show alookup id (upsert e.identifier IssueAction.added st.lastAction) = _
        rw [he, alookup_upsert_self]
      · rw [if_neg (by rw [idsOf_cons]; simp [he, ht])]
        show alookup id (upsert e.identifier IssueAction.added st.lastAction) = _
        rw [alookup_upsert_ne _ _ _ he]

theorem foldAdd_addedRefs (c : CommitContext) :
    ∀ (L : List ExtractedIdentifier) (st : ScanState) (id : String),
      alookup id ((L.foldl (applyAdded c) st).addedRefs) =
        if id ∈ idsOf L then some ⟨id, c.sha⟩ else alookup id st.addedRefs := by
  intro L
  induction L with
  | nil => intro st id; simp [idsOf]
  | cons e t ih =>
    intro st id
    rw [List.foldl_cons, ih]
    by_cases ht : id ∈ idsOf t
    · rw [if_pos ht, if_pos (by rw [idsOf_cons]; exact List.mem_cons_of_mem _ ht)]
    · rw [if_neg ht]
      by_cases he : id = e.identifier
      · rw [if_pos (by rw [idsOf_cons, he]; simp)]
        show alookup id (upsert e.identifier (⟨e.identifier, c.sha⟩ : IssueReference)
          st.addedRefs) = _
        rw [he, alookup_upsert_self]
      · rw [if_neg (by rw [idsOf_cons]; simp [he, ht])]
        show alookup id (upsert e.identifier (⟨e.identifier, c.sha⟩ : IssueReference)
          st.addedRefs) = _
        rw [alookup_upsert_ne _ _ _ he]

theorem foldAdd_unchanged (c : CommitContext) :
    ∀ (L : List ExtractedIdentifier) (st : ScanState),
      ((L.foldl (applyAdded c) st).revertedRefs = st.revertedRefs) ∧
      ((L.foldl (applyAdded c) st).debugSink.revertedIssues = st.debugSink.revertedIssues) ∧
      ((L.foldl (applyAdded c) st).prNumbers = st.prNumbers) := by
  intro L
  induction L with
  | nil => intro st; exact ⟨rfl, rfl, rfl⟩
  | cons e t ih =>
    intro st
    rw [List.foldl_cons]
    exact ih (applyAdded c st e)

theorem foldAdd_nodup (c : CommitContext) :
    ∀ (L : List ExtractedIdentifier) (st : ScanState),
      (st.lastAction.map Prod.fst).Nodup →
      (((L.foldl (applyAdded c) st).lastAction).map Prod.fst).Nodup := by
  intro L
  induction L with
  | nil => intro st h; exact h
  | cons e t ih =>
    intro st h
    rw [List.foldl_cons]
    exact ih _ (upsert_keys_nodup _ _ _ h)

theorem foldAdd_debug_unch (c : CommitContext) :
    ∀ (L : List ExtractedIdentifier) (st : ScanState) (id : String), id ∉ idsOf L →
      alookup id ((L.foldl (applyAdded c) st).debugSink.issues) =
        alookup id st.debugSink.issues := by
  intro L
  induction L with
  | nil => intro st id _; rfl
  | cons e t ih =>
    intro st id hid
    rw [idsOf_cons, List.mem_cons] at hid
    push_neg at hid
    rw [List.foldl_cons, ih _ id hid.2]
    show alookup id (pushEntry e.identifier _ st.debugSink.issues) = _
    rw [alookup_pushEntry_ne _ _ _ hid.1]

theorem foldAdd_debug_mem (c : CommitContext) :
    ∀ (L : List ExtractedIdentifier) (st : ScanState) (id : String), id ∈ idsOf L →
      ∃ es, alookup id ((L.foldl (applyAdded c) st).debugSink.issues) = some es ∧
        ∃ e ∈ es, e.sha = c.sha := by
  intro L
  induction L with
  | nil => intro st id h; simp [idsOf] at h
  | cons e t ih =>
    intro st id hid
    rw [List.foldl_cons]
    by_cases ht : id ∈ idsOf t
    · exact ih _ id ht
    · rw [idsOf_cons, List.mem_cons] at hid
      rcases hid with he | he
      · rw [foldAdd_debug_unch c t _ id ht]
        show ∃ es, alookup id (pushEntry e.identifier
          (⟨c.sha, e.source, sourceValue c e.source⟩ : IssueSource)
          st.debugSink.issues) = some es ∧ _
        rw [← he, alookup_pushEntry_self]
        refine ⟨_, rfl, ⟨⟨c.sha, e.source, sourceValue c e.source⟩, ?_, rfl⟩⟩
        simp
      · exact absurd he ht

theorem foldPR_unchanged (c : CommitContext) :
    ∀ (N : List Nat) (st : ScanState),
      ((N.foldl (applyPR c) st).lastAction = st.lastAction) ∧
      ((N.foldl (applyPR c) st).addedRefs = st.addedRefs) ∧
      ((N.foldl (applyPR c) st).revertedRefs = st.revertedRefs) ∧
      ((N.foldl (applyPR c) st).debugSink.issues = st.debugSink.issues) ∧
      ((N.foldl (applyPR c) st).debugSink.revertedIssues = st.debugSink.revertedIssues) := by
  intro N
  induction N with
  | nil => intro st; exact ⟨rfl, rfl, rfl, rfl, rfl⟩
  | cons n t ih =>
    intro st
    rw [List.foldl_cons]
    have happ : (applyPR c st n).lastAction = st.lastAction ∧
        (applyPR c st n).addedRefs = st.addedRefs ∧
        (applyPR c st n).revertedRefs = st.revertedRefs ∧
        (applyPR c st n).debugSink.issues = st.debugSink.issues ∧
        (applyPR c st n).debugSink.revertedIssues = st.debugSink.revertedIssues := by
      unfold applyPR
      by_cases h : n ∈ st.prNumbers
      · simp [h]
      · simp [h]
    rcases ih (applyPR c st n) with ⟨i1, i2, i3, i4, i5⟩
    rcases happ with ⟨a1, a2, a3, a4, a5⟩
    exact ⟨by rw [i1, a1], by rw [i2, a2], by rw [i3, a3], by rw [i4, a4], by rw [i5, a5]⟩

theorem scanStep_lastAction (st : ScanState) (c : CommitContext) (id : String) :
    alookup id (scanStep st c).lastAction =
      if id ∈ addedIdsOf c then some IssueAction.added
      else if id ∈ revertedIdsOf c then some IssueAction.reverted
      else alookup id st.lastAction := by
  simp only [scanStep]
  rw [(foldPR_unchanged c _ _).1, foldAdd_lastAction, foldRev_lastAction]
  rfl

theorem scanStep_addedRefs (st : ScanState) (c : CommitContext) (id : String) :
    alookup id (scanStep st c).addedRefs =
      if id ∈ addedIdsOf c then some ⟨id, c.sha⟩ else alookup id st.addedRefs := by
  simp only [scanStep]
  rw [(foldPR_unchanged c _ _).2.1, foldAdd_addedRefs, (foldRev_unchanged c _ _).1]
  rfl

theorem scanStep_revertedRefs (st : ScanState) (c : CommitContext) (id : String) :
    alookup id (scanStep st c).revertedRefs =
      if id ∈ revertedIdsOf c then some ⟨id, c.sha⟩ else alookup id st.revertedRefs := by
  simp only [scanStep]
  rw [(foldPR_unchanged c _ _).2.2.1, (foldAdd_unchanged c _ _).1, foldRev_revertedRefs]
  rfl

theorem scanStep_nodup (st : ScanState) (c : CommitContext)
    (h : (st.lastAction.map Prod.fst).Nodup) :
    ((scanStep st c).lastAction.map Prod.fst).Nodup := by
  simp only [scanStep]
  rw [(foldPR_unchanged c _ _).1]
  exact foldAdd_nodup c _ _ (foldRev_nodup c _ _ h)

theorem scanStep_issues_mem (st : ScanState) (c : CommitContext) (id : String)
    (h : id ∈ addedIdsOf c) :
    ∃ es, alookup id (scanStep st c).debugSink.issues = some es ∧ ∃ e ∈ es, e.sha = c.sha := by
  simp only [scanStep]
  rw [(foldPR_unchanged c _ _).2.2.2.1]
  exact foldAdd_debug_mem c _ _ id h

theorem scanStep_issues_unch (st : ScanState) (c : CommitContext) (id : String)
    (h : id ∉ addedIdsOf c) :
    alookup id (scanStep st c).debugSink.issues = alookup id st.debugSink.issues := by
  simp only [scanStep]
  rw [(foldPR_unchanged c _ _).2.2.2.1, foldAdd_debug_unch c _ _ id h,
    (foldRev_unchanged c _ _).2.1]

theorem scanStep_revertedIssues_mem (st : ScanState) (c : CommitContext) (id : String)
    (h : id ∈ revertedIdsOf c) :
    ∃ es, alookup id (scanStep st c).debugSink.revertedIssues = some es ∧
      ∃ e ∈ es, e.sha = c.sha := by
  simp only [scanStep]
  rw [(foldPR_unchanged c _ _).2.2.2.2, (foldAdd_unchanged c _ _).2.1]
  exact foldRev_debug_mem c _ _ id h

theorem scanStep_revertedIssues_unch (st : ScanState) (c : CommitContext) (id : String)
    (h : id ∉ revertedIdsOf c) :
    alookup id (scanStep st c).debugSink.revertedIssues =
      alookup id st.debugSink.revertedIssues := by
  simp only [scanStep]
  rw [(foldPR_unchanged c _ _).2.2.2.2, (foldAdd_unchanged c _ _).2.1,
    foldRev_debug_unch c _ _ id h]

theorem lastObs_snoc (cs : List CommitContext) (c : CommitContext) (id : String) :
    lastObs (cs ++ [c]) id =
      match obsOf c id with
      | some a => some (a, c.sha)
      | none => lastObs cs id := by
  simp [lastObs, List.foldl_append]

theorem lastAddedSha_snoc (cs : List CommitContext) (c : CommitContext) (id : String) :
    lastAddedSha (cs ++ [c]) id =
      if id ∈ addedIdsOf c then some c.sha else lastAddedSha cs id := by
  simp [lastAddedSha, List.foldl_append]

theorem lastRevertedSha_snoc (cs : List CommitContext) (c : CommitContext) (id : String) :
    lastRevertedSha (cs ++ [c]) id =
      if id ∈ revertedIdsOf c then some c.sha else lastRevertedSha cs id := by
  simp [lastRevertedSha, List.foldl_append]

theorem scanInv_init (ip : Option (List String)) : ScanInv [] (initScanState ip) := by
  refine ⟨by simp [initScanState], fun id => rfl, fun id => rfl, fun id => rfl, ?_, ?_⟩
  · intro id sha h
    simp [lastAddedSha] at h
  · intro id sha h
    simp [lastRevertedSha] at h

theorem scanInv_step (cs : List CommitContext) (st : ScanState) (c : CommitContext)
    (hinv : ScanInv cs st) : ScanInv (cs ++ [c]) (scanStep st c) := by
  obtain ⟨h1, h2, h3, h4, h5, h6⟩ := hinv
  refine ⟨scanStep_nodup st c h1, ?_, ?_, ?_, ?_, ?_⟩
  · intro id
    rw [scanStep_lastAction, lastObs_snoc]
    unfold obsOf
    by_cases ha : id ∈ addedIdsOf c
    · simp [ha]
    · by_cases hr : id ∈ revertedIdsOf c
      · simp [ha, hr]
      · simp [ha, hr, h2 id]
  · intro id
    rw [scanStep_addedRefs, lastAddedSha_snoc]
    by_cases ha : id ∈ addedIdsOf c
    · simp [ha]
    · simp [ha, h3 id]
  · intro id
    rw [scanStep_revertedRefs, lastRevertedSha_snoc]
    by_cases hr : id ∈ revertedIdsOf c
    · simp [hr]
    · simp [hr, h4 id]
  · intro id sha h
    rw [lastAddedSha_snoc] at h
    by_cases ha : id ∈ addedIdsOf c
    · rw [if_pos ha] at h
      injection h with h
      subst h
      exact scanStep_issues_mem st c id ha
    · rw [if_neg ha] at h
      rw [scanStep_issues_unch st c id ha]
      exact h5 id sha h
  · intro id sha h
    rw [lastRevertedSha_snoc] at h
    by_cases hr : id ∈ revertedIdsOf c
    · rw [if_pos hr] at h
      injection h with h
      subst h
      exact scanStep_revertedIssues_mem st c id hr
    · rw [if_neg hr] at h
      rw [scanStep_revertedIssues_unch st c id hr]
      exact h6 id sha h

theorem scanInv_all (cs : List CommitContext) (ip : Option (List String)) :
    ScanInv cs (cs.foldl scanStep (initScanState ip)) := by
  induction cs using List.reverseRecOn with
  | nil => exact scanInv_init ip
  | append_singleton ds c ih =>
    rw [List.foldl_append]
    simpa using scanInv_step ds _ c ih

theorem mem_finalize_added (st : ScanState) (r : IssueReference) :
    r ∈ (finalizeScan st).issueReferences ↔
      ∃ p ∈ st.lastAction, p.2 = IssueAction.added ∧ alookup p.1 st.addedRefs = some r := by
  unfold finalizeScan
  simp only [List.mem_filterMap]
  constructor
  · rintro ⟨p, hp, hf⟩
    by_cases h : p.2 = IssueAction.added
    · rw [if_pos h] at hf
      exact ⟨p, hp, h, hf⟩
    · rw [if_neg h] at hf
      simp at hf
  · rintro ⟨p, hp, h2, h3⟩
    exact ⟨p, hp, by rw [if_pos h2]; exact h3⟩

theorem mem_finalize_reverted (st : ScanState) (r : IssueReference) :
    r ∈ (finalizeScan st).revertedIssueReferences ↔
      ∃ p ∈ st.lastAction, p.2 = IssueAction.reverted ∧ alookup p.1 st.revertedRefs = some r := by
  unfold finalizeScan
  simp only [List.mem_filterMap]
  constructor
  · rintro ⟨p, hp, hf⟩
    by_cases h : p.2 = IssueAction.reverted
    · rw [if_pos h] at hf
      exact ⟨p, hp, h, hf⟩
    · rw [if_neg h] at hf
      simp at hf
  · rintro ⟨p, hp, h2, h3⟩
    exact ⟨p, hp, by rw [if_pos h2]; exact h3⟩

theorem finalize_added_inv (cs : List CommitContext) (st : ScanState) (hinv : ScanInv cs st)
    (r : IssueReference) (hr : r ∈ (finalizeScan st).issueReferences) :
    (r.identifier, IssueAction.added) ∈ st.lastAction ∧
    lastAddedSha cs r.identifier = some r.commitSha := by
  rcases (mem_finalize_added st r).mp hr with ⟨p, hp, hpa, hpl⟩
  have h3 := hinv.2.2.1 p.1
  rw [h3] at hpl
  cases hsha : lastAddedSha cs p.1 with
  | none =>
    rw [hsha] at hpl
    simp at hpl
  | some sha =>
    rw [hsha] at hpl
    simp only [Option.map_some', Option.some.injEq] at hpl
    have hid : r.identifier = p.1 := by rw [← hpl]
    have hsh : r.commitSha = sha := by rw [← hpl]
    constructor
    · rw [hid, ← hpa]
      exact hp
    · rw [hid, hsh]
      exact hsha

theorem finalize_reverted_inv (cs : List CommitContext) (st : ScanState) (hinv : ScanInv cs st)
    (r : IssueReference) (hr : r ∈ (finalizeScan st).revertedIssueReferences) :
    (r.identifier, IssueAction.reverted) ∈ st.lastAction ∧
    lastRevertedSha cs r.identifier = some r.commitSha := by
  rcases (mem_finalize_reverted st r).mp hr with ⟨p, hp, hpa, hpl⟩
  have h4 := hinv.2.2.2.1 p.1
  rw [h4] at hpl
  cases hsha : lastRevertedSha cs p.1 with
  | none =>
    rw [hsha] at hpl
    simp at hpl
  | some sha =>
    rw [hsha] at hpl
    simp only [Option.map_some', Option.some.injEq] at hpl
    have hid : r.identifier = p.1 := by rw [← hpl]
    have hsh : r.commitSha = sha := by rw [← hpl]
    constructor
    · rw [hid, ← hpa]
      exact hp
    · rw [hid, hsh]
      exact hsha

theorem lastObs_added_sha : ∀ (cs : List CommitContext) (id sha : String),
    lastObs cs id = some (IssueAction.added, sha) → lastAddedSha cs id = some sha := by
  intro cs
  induction cs using List.reverseRecOn with
  | nil => intro id sha h; simp [lastObs] at h
  | append_singleton ds c ih =>
    intro id sha h
    rw [lastObs_snoc] at h
    rw [lastAddedSha_snoc]
    unfold obsOf at h
    by_cases ha : id ∈ addedIdsOf c
    · rw [if_pos ha] at h
      rw [if_pos ha]
      simp only [Option.some.injEq, Prod.mk.injEq] at h
      simp [h.2]
    · rw [if_neg ha] at h
      rw [if_neg ha]
      by_cases hr : id ∈ revertedIdsOf c
      · rw [if_pos hr] at h
        simp at h
      · rw [if_neg hr] at h
        exact ih id sha h

theorem lastObs_reverted_sha : ∀ (cs : List CommitContext) (id sha : String),
    lastObs cs id = some (IssueAction.reverted, sha) → lastRevertedSha cs id = some sha := by
  intro cs
  induction cs using List.reverseRecOn with
  | nil => intro id sha h; simp [lastObs] at h
  | append_singleton ds c ih =>
    intro id sha h
    rw [lastObs_snoc] at h
    rw [lastRevertedSha_snoc]
    unfold obsOf at h
    by_cases ha : id ∈ addedIdsOf c
    · rw [if_pos ha] at h
      simp at h
    · rw [if_neg ha] at h
      by_cases hr : id ∈ revertedIdsOf c
      · rw [if_pos hr] at h
        rw [if_pos hr]
        simp only [Option.some.injEq, Prod.mk.injEq] at h
        simp [h.2]
      · rw [if_neg hr] at h
        rw [if_neg hr]
        exact ih id sha h

/-- C1: For every commit list supplied oldest-first to `scanCommits`, each
identifier ends in the output list determined by its chronologically latest
observation: if its last observation across the sequence is an add it appears
(only) in the added issue list with the sha of that adding commit, if its
last observation is a revert it appears (only) in the reverted list with the
sha of that reverting commit; an identifier never observed appears in neither
list. -/
theorem scanCommits_last_write_wins (commits : List CommitContext)
    (ip : Option (List String)) (id : String) :
    (lastObs commits id = none →
      (∀ r ∈ (scanCommits commits ip).issueReferences, r.identifier ≠ id) ∧
      (∀ r ∈ (scanCommits commits ip).revertedIssueReferences, r.identifier ≠ id)) ∧
    (∀ sha : String, lastObs commits id = some (IssueAction.added, sha) →
      (⟨id, sha⟩ : IssueReference) ∈ (scanCommits commits ip).issueReferences ∧
      ∀ r ∈ (scanCommits commits ip).revertedIssueReferences, r.identifier ≠ id) ∧
    (∀ sha : String, lastObs commits id = some (IssueAction.reverted, sha) →
      (⟨id, sha⟩ : IssueReference) ∈ (scanCommits commits ip).revertedIssueReferences ∧
      ∀ r ∈ (scanCommits commits ip).issueReferences, r.identifier ≠ id) := by
  have hinv := scanInv_all commits ip
  refine ⟨?_, ?_, ?_⟩
  · intro h0
    constructor
    · intro r hr heq
      have hmem := (finalize_added_inv commits _ hinv r hr).1
      rw [heq] at hmem
      have := mem_alookup id IssueAction.added _ hinv.1 hmem
      rw [hinv.2.1 id, h0] at this
      simp at this
    · intro r hr heq
      have hmem := (finalize_reverted_inv commits _ hinv r hr).1
      rw [heq] at hmem
      have := mem_alookup id IssueAction.reverted _ hinv.1 hmem
      rw [hinv.2.1 id, h0] at this
      simp at this
  · intro sha hobs
    have hla : alookup id (commits.foldl scanStep (initScanState ip)).lastAction =
        some IssueAction.added := by
      rw [hinv.2.1 id, hobs]
      rfl
    have hmem := alookup_mem id IssueAction.added _ hla
    have hsha := lastObs_added_sha commits id sha hobs
    have href : alookup id (commits.foldl scanStep (initScanState ip)).addedRefs =
        some ⟨id, sha⟩ := by
      rw [hinv.2.2.1 id, hsha]
      rfl
    constructor
    · exact (mem_finalize_added _ _).mpr ⟨(id, IssueAction.added), hmem, rfl, href⟩
    · intro r hr heq
      have hmem2 := (finalize_reverted_inv commits _ hinv r hr).1
      rw [heq] at hmem2
      have := mem_alookup id IssueAction.reverted _ hinv.1 hmem2
      rw [hla] at this
      simp at this
  · intro sha hobs
    have hla : alookup id (commits.foldl scanStep (initScanState ip)).lastAction =
        some IssueAction.reverted := by
      rw [hinv.2.1 id, hobs]
      rfl
    have hmem := alookup_mem id IssueAction.reverted _ hla
    have hsha := lastObs_reverted_sha commits id sha hobs
    have href : alookup id (commits.foldl scanStep (initScanState ip)).revertedRefs =
        some ⟨id, sha⟩ := by
      rw [hinv.2.2.2.1 id, hsha]
      rfl
    constructor
    · exact (mem_finalize_reverted _ _).mpr ⟨(id, IssueAction.reverted), hmem, rfl, href⟩
    · intro r hr heq
      have hmem2 := (finalize_added_inv commits _ hinv r hr).1
      rw [heq] at hmem2
      have := mem_alookup id IssueAction.added _ hinv.1 hmem2
      rw [hla] at this
      simp at this

theorem scanCommits_last_write_wins_witness :
    lastObs chainCommits ("BAC-39") = some (IssueAction.added, "ra2") ∧
    (⟨"BAC-39", "ra2"⟩ : IssueReference) ∈ (scanCommits chainCommits none).issueReferences ∧
    ∀ r ∈ (scanCommits chainCommits none).revertedIssueReferences,
      r.identifier ≠ "BAC-39" :=
  ⟨by decide,
   ((scanCommits_last_write_wins chainCommits none ("BAC-39")).2.1 ("ra2") (by decide)).1,
   ((scanCommits_last_write_wins chainCommits none ("BAC-39")).2.1 ("ra2") (by decide)).2⟩

/-- C7: In every scan result, the added and reverted issue lists are disjoint
by identifier, and every reference in either list has an audit-trail entry
under its identifier whose commit sha matches the winning reference's sha
(added references in the issues record, reverted references in the
reverted-issues record). -/
theorem scan_disjoint_and_audited (commits : List CommitContext) (ip : Option (List String)) :
    (∀ r1 ∈ (scanCommits commits ip).issueReferences,
      ∀ r2 ∈ (scanCommits commits ip).revertedIssueReferences,
        r1.identifier ≠ r2.identifier) ∧
    (∀ r ∈ (scanCommits commits ip).issueReferences,
      ∃ es, alookup r.identifier (scanCommits commits ip).debugSink.issues = some es ∧
        ∃ e ∈ es, e.sha = r.commitSha) ∧
    (∀ r ∈ (scanCommits commits ip).revertedIssueReferences,
      ∃ es, alookup r.identifier (scanCommits commits ip).debugSink.revertedIssues = some es ∧
        ∃ e ∈ es, e.sha = r.commitSha) := by
  have hinv := scanInv_all commits ip
  refine ⟨?_, ?_, ?_⟩
  · intro r1 hr1 r2 hr2 heq
    have h1 := (finalize_added_inv commits _ hinv r1 hr1).1
    have h2 := (finalize_reverted_inv commits _ hinv r2 hr2).1
    rw [heq] at h1
    have ha := mem_alookup r2.identifier IssueAction.added _ hinv.1 h1
    have hb := mem_alookup r2.identifier IssueAction.reverted _ hinv.1 h2
    rw [ha] at hb
    simp at hb
  · intro r hr
    have hsha := (finalize_added_inv commits _ hinv r hr).2
    exact hinv.2.2.2.2.1 r.identifier r.commitSha hsha
  · intro r hr
    have hsha := (finalize_reverted_inv commits _ hinv r hr).2
    exact hinv.2.2.2.2.2 r.identifier r.commitSha hsha

theorem scan_disjoint_and_audited_witness :
    (⟨"BAC-39", "ra2"⟩ : IssueReference) ∈ (scanCommits chainCommits none).issueReferences ∧
    (∃ es, alookup ("BAC-39") (scanCommits chainCommits none).debugSink.issues = some es ∧
      ∃ e ∈ es, e.sha = "ra2") :=
  ⟨by decide,
   (scan_disjoint_and_audited chainCommits none).2.1 ⟨"BAC-39", "ra2"⟩ (by decide)⟩
